import Mathlib

/-!
Verification of the smart_malloc fixed-pool allocator
(src/smart_malloc/src/memory_allocator.cpp, memory_allocator.h).

The arena is modelled as a list of block headers in physical order, each
carrying its byte offset into the pool.  A pointer into the pool is a byte
offset; the C null pointer is `Option.none`.  Machine sizes are `Nat` with
`SIZE_MAX = 2^64 - 1` used exactly where the C code mentions it (the
`xcalloc` overflow guard); no other arithmetic in the allocator can wrap
because every size is bounded by `POOL_SIZE`.  Payload bytes are a function
`Nat -> Nat`, written only by the `memset` in `xcalloc` and the `memcpy` in
`xrealloc`, which is all the claims need.

`sizeof(BlockHeader)` in the release build on an LP64 platform is 48 bytes
(bool + padding, size_t, pointer, uint32_t + padding, size_t, size_t).
-/

namespace SmartMalloc

/-- `sizeof(BlockHeader)` in the release build (LP64). -/
def H : Nat := 48

/-- `POOL_SIZE = 2 * 1024 * 1024` from memory_allocator.h. -/
def PS : Nat := 2 * 1024 * 1024

/-- `SIZE_MAX` on a 64-bit platform. -/
def SIZEMAX : Nat := 2 ^ 64 - 1

/-- One `BlockHeader`, together with its physical byte offset into the pool.
The `next` pointer of the intrusive free list is represented separately, as
the order of `AState.free_list`. -/
structure Blk where
  off : Nat
  is_free : Bool
  size : Nat
  block_id : Nat
  alignment : Nat
  padding : Nat
deriving DecidableEq

/-- Physical end of a block: offset of the byte after its payload. -/
def endOf (b : Blk) : Nat := b.off + H + b.size

/-- The allocator's process-wide state: the pool's block layout in physical
order, the free list as a list of block offsets (insertion order, head =
most recently freed), the `next_block_id` counter, and the payload bytes.
`created` is a ghost trace recording every `block_id` assigned at a block
creation (pool init, split, or the reset block of `xfree_all`); it affects
no operational behaviour. -/
structure AState where
  blocks : List Blk
  free_list : List Nat
  next_block_id : Nat
  created : List Nat
  mem : Nat → Nat

/-- State after `initialize_pool()`: one free block spanning the arena,
`block_id = 0`, counter at 1. -/
def initState : AState :=
  { blocks := [⟨0, true, PS - H, 0, 0, 0⟩]
    free_list := [0]
    next_block_id := 1
    created := [0]
    mem := fun _ => 0 }

/-- Dereference a block pointer (offset): the header stored at that offset. -/
def lookupBlock (l : List Blk) (o : Nat) : Option Blk :=
  l.find? fun c => decide (c.off = o)

/-- Apply `g` to the header stored at offset `o` (a field write through a
block pointer). -/
def mapAt (l : List Blk) (o : Nat) (g : Blk → Blk) : List Blk :=
  match l with
  | [] => []
  | c :: t => (if c.off = o then g c else c) :: mapAt t o g

/-- Overwrite the header at offset `o`. -/
def updBlock (l : List Blk) (o : Nat) (b : Blk) : List Blk :=
  mapAt l o fun _ => b

/-- Drop the header at offset `o` (its bytes become payload of a neighbour
after a merge). -/
def removeBlock (l : List Blk) (o : Nat) : List Blk :=
  match l with
  | [] => []
  | c :: t => if c.off = o then removeBlock t o else c :: removeBlock t o

/-- Replace the block at offset `o` by the allocated part `b` followed by the
carved-off remainder `r` (block splitting). -/
def splitIns (l : List Blk) (o : Nat) (b r : Blk) : List Blk :=
  match l with
  | [] => []
  | c :: t => if c.off = o then b :: r :: splitIns t o b r else c :: splitIns t o b r

/-- Insert header `r` directly after the block at offset `o` (the remainder
block of an in-place `xrealloc` extension). -/
def insAfter (l : List Blk) (o : Nat) (r : Blk) : List Blk :=
  match l with
  | [] => []
  | c :: t => if c.off = o then c :: r :: insAfter t o r else c :: insAfter t o r

/-- The physical scan used by every diagnostic and by `get_block_header`:
starting at `pos`, each header must sit exactly where the previous block
ended; the result is the final position reached, `none` if some header is
not where the walk expects it. -/
def walk (pos : Nat) : List Blk → Option Nat
  | [] => some pos
  | c :: t => if c.off = pos then walk (pos + H + c.size) t else none

/-- `get_block_header(ptr)`: `nullptr` unless `ptr` is inside the pool, then
scan for the block whose payload byte range contains `ptr`. -/
def getBlockHeader (l : List Blk) (p : Nat) : Option Blk :=
  if p < PS then l.find? (fun c => decide (c.off + H ≤ p ∧ p < c.off + H + c.size)) else none

/-- Error conditions reported by the allocator (each C function prints a
distinct message and returns `nullptr` / returns without mutating). -/
inductive AErr where
  | zeroSize | oversized | outOfMemory | overflow | badAlign
  | invalidPtr | doubleFree | nullPtr
deriving DecidableEq

/-- Result of one public allocator operation: a payload pointer, a normal
void return (`xfree` success / `xrealloc(p, 0)` success), or an error. -/
inductive ARes where
  | ptr (p : Nat)
  | ok
  | err (e : AErr)
deriving DecidableEq

/-- Best-fit accumulator bound: `best_fit_size`, initially `SIZE_MAX`. -/
def bound : Option (Nat × Blk) → Nat
  | none => SIZEMAX
  | some x => x.2.size

/-- The `find_free_block` scan loop over the free list: keep the smallest
free block of size at least `s` seen so far. -/
def ffbGo (σ : AState) (s : Nat) : List Nat → Option (Nat × Blk) → Option (Nat × Blk)
  | [], acc => acc
  | o :: t, acc =>
    match lookupBlock σ.blocks o with
    | none => ffbGo σ s t acc
    | some b =>
      if b.is_free && decide (s ≤ b.size) && decide (b.size < bound acc)
      then ffbGo σ s t (some (o, b))
      else ffbGo σ s t acc

/-- `find_free_block(size)`: best-fit search over the free list; returns the
chosen block pointer (offset and header). -/
def find_free_block (σ : AState) (s : Nat) : Option (Nat × Blk) :=
  ffbGo σ s σ.free_list none

/-- `next_block_id++` at a block creation, recorded in the ghost trace. -/
def fresh_id (σ : AState) : Nat × AState :=
  (σ.next_block_id,
   { σ with next_block_id := σ.next_block_id + 1
            created := σ.created ++ [σ.next_block_id] })

/-- The shared allocation tail of `xmalloc` / `xcalloc` / the two allocation
paths of `xrealloc`: mark the found block allocated, remove it from the free
list, and split it when the payload exceeds the request by more than
`sizeof(BlockHeader) + 32`. -/
def alloc_found (σ : AState) (o : Nat) (b : Blk) (s : Nat) : AState :=
  let b1 : Blk := { b with is_free := false, alignment := 0, padding := 0 }
  if s + (H + 32) < b.size then
    let f := fresh_id σ
    let rem : Blk := ⟨o + H + s, true, b.size - s - H, f.1, 0, 0⟩
    { f.2 with blocks := splitIns σ.blocks o { b1 with size := s } rem
               free_list := rem.off :: σ.free_list.erase o }
  else
    { σ with blocks := updBlock σ.blocks o b1
             free_list := σ.free_list.erase o }

/-- `xmalloc(size)` (also the duplicated `ptr == nullptr` path of
`xrealloc`): validate, best-fit search, allocate, split. -/
def malloc_core (σ : AState) (s : Nat) : ARes × AState :=
  if s = 0 then (.err .zeroSize, σ)
  else if PS - H < s then (.err .oversized, σ)
  else
    match find_free_block σ s with
    | none => (.err .outOfMemory, σ)
    | some (o, b) => (.ptr (o + H), alloc_found σ o b s)

/-- `xmalloc(size)`. -/
def xmalloc (σ : AState) (s : Nat) : ARes × AState := malloc_core σ s

/-- Set the `is_free` field of the header at offset `o` (the single field
write `block->is_free = v`). -/
def setFreeFlag (l : List Blk) (o : Nat) (v : Bool) : List Blk :=
  mapAt l o fun c => { c with is_free := v }

/-- `coalesce_with_next(block)`: if the physically next header exists and is
free, absorb it (the current block grows by header plus payload of the
next; the next header disappears from the layout and the free list). -/
def coalesce_with_next (σ : AState) (o : Nat) : AState :=
  match lookupBlock σ.blocks o with
  | none => σ
  | some cur =>
    let nextOff := o + H + cur.size
    if nextOff < PS then
      match lookupBlock σ.blocks nextOff with
      | none => σ
      | some n =>
        if n.is_free then
          { σ with
            blocks := removeBlock (mapAt σ.blocks o fun c => { c with size := c.size + H + n.size }) nextOff
            free_list := σ.free_list.erase nextOff }
        else σ
    else σ

/-- `coalesce_with_previous(block)`: scan from the pool start for the header
whose end equals this block's start; if it is free it absorbs this block. -/
def coalesce_with_previous (σ : AState) (o : Nat) : AState :=
  match lookupBlock σ.blocks o with
  | none => σ
  | some cur =>
    match σ.blocks.find? (fun c => decide (c.off + H + c.size = o)) with
    | none => σ
    | some prev =>
      if prev.is_free then
        { σ with
          blocks := removeBlock (mapAt σ.blocks prev.off fun c => { c with size := c.size + H + cur.size }) o
          free_list := σ.free_list.erase o }
      else σ

/-- `xfree(ptr)`: null / out-of-pool / no-containing-block / double-free
checks, then mark free, push on the free list, and coalesce one hop forward
and one hop backward. -/
def xfree (σ : AState) (p : Option Nat) : ARes × AState :=
  match p with
  | none => (.err .nullPtr, σ)
  | some q =>
    if PS ≤ q then (.err .invalidPtr, σ)
    else
      match getBlockHeader σ.blocks q with
      | none => (.err .invalidPtr, σ)
      | some b =>
        if b.is_free then (.err .doubleFree, σ)
        else
          let s1 : AState :=
            { σ with blocks := setFreeFlag σ.blocks b.off true
                     free_list := b.off :: σ.free_list }
          (.ok, coalesce_with_previous (coalesce_with_next s1 b.off) b.off)

/-- `xcalloc(num, size)`: overflow guard on `num * size`, then the plain
allocation path on the product, then `memset(result, 0, total)`. -/
def xcalloc (σ : AState) (num sz : Nat) : ARes × AState :=
  if 0 < num ∧ SIZEMAX / num < sz then (.err .overflow, σ)
  else
    let total := num * sz
    if total = 0 then (.err .zeroSize, σ)
    else if PS - H < total then (.err .oversized, σ)
    else
      match find_free_block σ total with
      | none => (.err .outOfMemory, σ)
      | some (o, b) =>
        let s1 := alloc_found σ o b total
        (.ptr (o + H),
         { s1 with mem := fun a => if o + H ≤ a ∧ a < o + H + total then 0 else s1.mem a })

/-- `xrealloc(ptr, new_size)`: malloc on null, free on zero size, keep the
block when it is already big enough, otherwise extend in place into a free
physical successor or relocate (allocate, copy, free the old block). -/
def xrealloc (σ : AState) (p : Option Nat) (new_size : Nat) : ARes × AState :=
  match p with
  | none => malloc_core σ new_size
  | some q =>
    if new_size = 0 then
      if PS ≤ q then (.err .invalidPtr, σ)
      else
        match getBlockHeader σ.blocks q with
        | none => (.err .invalidPtr, σ)
        | some b =>
          if b.is_free then (.err .doubleFree, σ)
          else
            let s1 : AState :=
              { σ with blocks := setFreeFlag σ.blocks b.off true
                       free_list := b.off :: σ.free_list }
            (.ok, coalesce_with_previous (coalesce_with_next s1 b.off) b.off)
    else if PS ≤ q then (.err .invalidPtr, σ)
    else
      match getBlockHeader σ.blocks q with
      | none => (.err .invalidPtr, σ)
      | some b =>
        let old := b.size
        if new_size ≤ old then (.ptr q, σ)
        else
          let nextOff := b.off + H + b.size
          let nxt := if nextOff < PS then lookupBlock σ.blocks nextOff else none
          let canExtend :=
            match nxt with
            | some n => n.is_free && decide (new_size ≤ old + (n.size + H))
            | none => false
          if canExtend then
            match nxt with
            | some n =>
              let needed := new_size - old
              let avail := n.size + H
              let s1 : AState :=
                { σ with
                  blocks := removeBlock (updBlock σ.blocks b.off { b with size := new_size }) nextOff
                  free_list := σ.free_list.erase nextOff }
              if needed + H < avail then
                let f := fresh_id s1
                let rem : Blk := ⟨b.off + H + new_size, true, avail - needed - H, f.1, 0, 0⟩
                (.ptr q, { f.2 with blocks := insAfter s1.blocks b.off rem
                                    free_list := rem.off :: s1.free_list })
              else (.ptr q, s1)
            | none => (.err .invalidPtr, σ)
          else
            match find_free_block σ new_size with
            | none => (.err .outOfMemory, σ)
            | some (o2, b2) =>
              let s1 := alloc_found σ o2 b2 new_size
              let np := o2 + H
              let s2 : AState :=
                { s1 with mem := fun a => if np ≤ a ∧ a < np + old then s1.mem (q + (a - np)) else s1.mem a }
              let s3 : AState :=
                { s2 with blocks := setFreeFlag s2.blocks b.off true
                          free_list := b.off :: s2.free_list }
              (.ptr np, coalesce_with_previous (coalesce_with_next s3 b.off) b.off)

/-- `xmalloc_aligned(size, alignment)`: validate the power-of-two alignment,
search with `size + sizeof(BlockHeader) + alignment - 1`, compute the
padding from the runtime address `base + off + sizeof(BlockHeader)` of the
payload start, and split or hand the block over with
`block->size = size + padding`.  `base` is the (arbitrary) runtime address
of `memory_pool`. -/
def xmalloc_aligned (σ : AState) (s a base : Nat) : ARes × AState :=
  if s = 0 then (.err .zeroSize, σ)
  else if a = 0 ∨ a &&& (a - 1) ≠ 0 then (.err .badAlign, σ)
  else
    let total := s + H + (a - 1)
    if PS - H < total then (.err .oversized, σ)
    else
      match find_free_block σ total with
      | none => (.err .outOfMemory, σ)
      | some (o, b) =>
        let bs := base + o + H
        let pad := if bs % a = 0 then 0 else a - bs % a
        let aligned := o + H + pad
        let used := s + pad
        let b1 : Blk := { b with is_free := false, alignment := a, padding := pad }
        if used + (H + 32) < b.size then
          let f := fresh_id σ
          let rem : Blk := ⟨o + H + used, true, b.size - used - H, f.1, 0, 0⟩
          (.ptr aligned,
           { f.2 with blocks := splitIns σ.blocks o { b1 with size := used } rem
                      free_list := rem.off :: σ.free_list.erase o })
        else
          (.ptr aligned,
           { σ with blocks := updBlock σ.blocks o { b1 with size := used }
                    free_list := σ.free_list.erase o })

/-- `xfree_all()`: structural reset to one free block spanning the arena
with `block_id = 0`, free list of that one block, and the id counter set
back to 1. -/
def xfree_all (σ : AState) : AState :=
  { blocks := [⟨0, true, PS - H, 0, 0, 0⟩]
    free_list := [0]
    next_block_id := 1
    created := σ.created ++ [0]
    mem := σ.mem }

/-- One left-to-right pass of `defragment()` over the physical layout:
whenever the current block and its physical successor are both free, merge
them and continue after the merged region (the merged block is not compared
against its new successor in the same pass).  Returns the new layout, the
offsets removed from the free list, and the merge count. -/
def sweep : List Blk → List Blk × List Nat × Nat
  | [] => ([], [], 0)
  | [b] => ([b], [], 0)
  | b :: n :: rest =>
    if b.is_free && n.is_free && decide (n.off = b.off + H + b.size) && decide (b.off + H + b.size < PS) then
      let r := sweep rest
      ({ b with size := b.size + H + n.size } :: r.1, n.off :: r.2.1, r.2.2 + 1)
    else
      let r := sweep (n :: rest)
      (b :: r.1, r.2.1, r.2.2)

/-- `defragment()`: the single sweep, with the absorbed blocks removed from
the free list. -/
def defragment (σ : AState) : AState :=
  let r := sweep σ.blocks
  { σ with blocks := r.1
           free_list := r.2.1.foldl (fun fl o => fl.erase o) σ.free_list }

/-- One public operation of the allocator's external interface. -/
inductive Op where
  | malloc (s : Nat)
  | free (p : Option Nat)
  | calloc (num sz : Nat)
  | realloc (p : Option Nat) (n : Nat)
  | mallocAligned (s a base : Nat)
  | defrag
  | freeAll
deriving DecidableEq

/-- Execute one operation (discarding the returned value). -/
def step (σ : AState) : Op → AState
  | .malloc s => (xmalloc σ s).2
  | .free p => (xfree σ p).2
  | .calloc num sz => (xcalloc σ num sz).2
  | .realloc p n => (xrealloc σ p n).2
  | .mallocAligned s a base => (xmalloc_aligned σ s a base).2
  | .defrag => defragment σ
  | .freeAll => xfree_all σ

/-- Execute a sequence of public operations from the freshly initialized
pool. -/
def run (ops : List Op) : AState := ops.foldl step initState

/-- Number of free blocks in the physical layout. -/
def freeCount (σ : AState) : Nat := σ.blocks.countP fun c => c.is_free

/-- Total free payload bytes in the physical layout. -/
def freeBytes (σ : AState) : Nat :=
  (σ.blocks.map fun c => if c.is_free then c.size else 0).sum

/-- No two physically adjacent blocks are both free (the precondition the
automatic one-hop coalescing of `xfree` maintains). -/
def noAdj : List Blk → Bool
  | [] => true
  | [_] => true
  | a :: b :: t => !(a.is_free && b.is_free) && noAdj (b :: t)

/-- A well-formed arena containing a run of three consecutive free blocks
followed by an allocated block filling the rest of the pool (the shape the
defragmentation claim is about). -/
def threeFreeState : AState :=
  { blocks := [⟨0, true, 100, 10, 0, 0⟩, ⟨148, true, 100, 11, 0, 0⟩,
               ⟨296, true, 100, 12, 0, 0⟩, ⟨444, false, 2096660, 13, 0, 0⟩]
    free_list := [0, 148, 296]
    next_block_id := 20
    created := []
    mem := fun _ => 0 }

end SmartMalloc

namespace SmartMalloc

/-! ### Generic `find?` lemmas -/

theorem find?_none_of_all {α : Type} (f : α → Bool) (l : List α)
    (h : ∀ c ∈ l, f c = false) : l.find? f = none := by
  rw [List.find?_eq_none]
  intro x hx
  simp [h x hx]

theorem find?_append_left_none {α : Type} (f : α → Bool) (l1 l2 : List α)
    (h : ∀ c ∈ l1, f c = false) : (l1 ++ l2).find? f = l2.find? f := by
  rw [List.find?_append, find?_none_of_all f l1 h, Option.none_or]

theorem find?_decomp {α : Type} (f : α → Bool) :
    ∀ (l : List α) (b : α), l.find? f = some b →
      ∃ l1 l2, l = l1 ++ b :: l2 ∧ f b = true ∧ ∀ c ∈ l1, f c = false := by
  intro l
  induction l with
  | nil => intro b h; simp [List.find?] at h
  | cons a t ih =>
    intro b h
    by_cases ha : f a = true
    · have hab : a = b := by simpa [List.find?, ha] using h
      subst hab
      exact ⟨[], t, rfl, ha, by simp⟩
    · have ha' : f a = false := by simpa using ha
      simp only [List.find?, ha'] at h
      obtain ⟨l1, l2, h1, h2, h3⟩ := ih b h
      refine ⟨a :: l1, l2, by simp [h1], h2, ?_⟩
      intro c hc
      rcases List.mem_cons.mp hc with rfl | hc
      · exact ha'
      · exact h3 c hc

/-! ### `walk` lemmas: the physical scan of the arena -/

theorem H_pos : 0 < H := by decide

theorem walk_append (l1 l2 : List Blk) (pos : Nat) :
    walk pos (l1 ++ l2) = (walk pos l1).bind fun m => walk m l2 := by
  induction l1 generalizing pos with
  | nil => simp [walk]
  | cons c t ih =>
    simp only [List.cons_append, walk]
    by_cases h : c.off = pos
    · simp [h, ih]
    · simp [h]

theorem walk_pos_le : ∀ (l : List Blk) (pos m : Nat), walk pos l = some m → pos ≤ m := by
  intro l
  induction l with
  | nil => intro pos m h; simp [walk] at h; omega
  | cons c t ih =>
    intro pos m h
    simp only [walk] at h
    by_cases hc : c.off = pos
    · simp [hc] at h
      have := ih (pos + H + c.size) m h
      omega
    · simp [hc] at h

theorem walk_bounds : ∀ (l : List Blk) (pos m : Nat), walk pos l = some m →
    ∀ c ∈ l, pos ≤ c.off ∧ c.off + H + c.size ≤ m := by
  intro l
  induction l with
  | nil => intro pos m _ c hc; simp at hc
  | cons a t ih =>
    intro pos m h c hc
    simp only [walk] at h
    by_cases ha : a.off = pos
    · rw [if_pos ha] at h
      rcases List.mem_cons.mp hc with rfl | hc
      · have := walk_pos_le t (pos + H + c.size) m h
        omega
      · have := ih (pos + H + a.size) m h c hc
        omega
    · rw [if_neg ha] at h
      exact absurd h (by simp)

theorem walk_decomp (l1 : List Blk) (b : Blk) (l2 : List Blk) (pos m : Nat)
    (hw : walk pos (l1 ++ b :: l2) = some m) :
    walk pos l1 = some b.off ∧ walk (endOf b) l2 = some m := by
  rw [walk_append] at hw
  rcases h1 : walk pos l1 with _ | k
  · rw [h1] at hw; simp at hw
  · rw [h1] at hw
    replace hw : walk k (b :: l2) = some m := hw
    simp only [walk] at hw
    by_cases hb : b.off = k
    · rw [if_pos hb] at hw
      subst hb
      exact ⟨rfl, by simpa [endOf] using hw⟩
    · rw [if_neg hb] at hw
      exact absurd hw (by simp)

theorem walk_compose (l1 : List Blk) (b : Blk) (l2 : List Blk) (pos m : Nat)
    (h1 : walk pos l1 = some b.off) (h2 : walk (endOf b) l2 = some m) :
    walk pos (l1 ++ b :: l2) = some m := by
  rw [walk_append, h1]
  simp only [Option.bind_some, walk, if_pos rfl]
  simpa [endOf] using h2

/-! ### Rewriting the pointer-update helpers on a decomposed layout -/

theorem mapAt_eq_of_clean (o : Nat) (g : Blk → Blk) :
    ∀ l : List Blk, (∀ c ∈ l, c.off ≠ o) → mapAt l o g = l := by
  intro l h
  induction l with
  | nil => rfl
  | cons a t ih =>
    have ha := h a (by simp)
    simp only [mapAt, if_neg ha]
    rw [ih fun c hc => h c (by simp [hc])]

theorem mapAt_append (l1 l2 : List Blk) (o : Nat) (g : Blk → Blk) :
    mapAt (l1 ++ l2) o g = mapAt l1 o g ++ mapAt l2 o g := by
  induction l1 with
  | nil => rfl
  | cons a t ih => simp [List.cons_append, mapAt, ih]

theorem mapAt_decomp (l1 : List Blk) (b : Blk) (l2 : List Blk) (o : Nat) (g : Blk → Blk)
    (h1 : ∀ c ∈ l1, c.off ≠ o) (hb : b.off = o) (h2 : ∀ c ∈ l2, c.off ≠ o) :
    mapAt (l1 ++ b :: l2) o g = l1 ++ g b :: l2 := by
  rw [mapAt_append, mapAt_eq_of_clean o g l1 h1]
  simp only [mapAt, if_pos hb]
  rw [mapAt_eq_of_clean o g l2 h2]

theorem removeBlock_eq_of_clean (o : Nat) :
    ∀ l : List Blk, (∀ c ∈ l, c.off ≠ o) → removeBlock l o = l := by
  intro l h
  induction l with
  | nil => rfl
  | cons a t ih =>
    have ha := h a (by simp)
    simp only [removeBlock, if_neg ha]
    rw [ih fun c hc => h c (by simp [hc])]

theorem removeBlock_append (l1 l2 : List Blk) (o : Nat) :
    removeBlock (l1 ++ l2) o = removeBlock l1 o ++ removeBlock l2 o := by
  induction l1 with
  | nil => rfl
  | cons a t ih =>
    by_cases ha : a.off = o <;> simp [List.cons_append, removeBlock, ha, ih]

theorem removeBlock_decomp (l1 : List Blk) (b : Blk) (l2 : List Blk) (o : Nat)
    (h1 : ∀ c ∈ l1, c.off ≠ o) (hb : b.off = o) (h2 : ∀ c ∈ l2, c.off ≠ o) :
    removeBlock (l1 ++ b :: l2) o = l1 ++ l2 := by
  rw [removeBlock_append, removeBlock_eq_of_clean o l1 h1]
  simp only [removeBlock, if_pos hb]
  rw [removeBlock_eq_of_clean o l2 h2]

theorem splitIns_eq_of_clean (o : Nat) (bb r : Blk) :
    ∀ l : List Blk, (∀ c ∈ l, c.off ≠ o) → splitIns l o bb r = l := by
  intro l h
  induction l with
  | nil => rfl
  | cons a t ih =>
    have ha := h a (by simp)
    simp only [splitIns, if_neg ha]
    rw [ih fun c hc => h c (by simp [hc])]

theorem splitIns_append (l1 l2 : List Blk) (o : Nat) (bb r : Blk) :
    splitIns (l1 ++ l2) o bb r = splitIns l1 o bb r ++ splitIns l2 o bb r := by
  induction l1 with
  | nil => rfl
  | cons a t ih =>
    by_cases ha : a.off = o <;> simp [List.cons_append, splitIns, ha, ih]

theorem splitIns_decomp (l1 : List Blk) (b : Blk) (l2 : List Blk) (o : Nat) (bb r : Blk)
    (h1 : ∀ c ∈ l1, c.off ≠ o) (hb : b.off = o) (h2 : ∀ c ∈ l2, c.off ≠ o) :
    splitIns (l1 ++ b :: l2) o bb r = l1 ++ bb :: r :: l2 := by
  rw [splitIns_append, splitIns_eq_of_clean o bb r l1 h1]
  simp only [splitIns, if_pos hb]
  rw [splitIns_eq_of_clean o bb r l2 h2]

theorem insAfter_eq_of_clean (o : Nat) (r : Blk) :
    ∀ l : List Blk, (∀ c ∈ l, c.off ≠ o) → insAfter l o r = l := by
  intro l h
  induction l with
  | nil => rfl
  | cons a t ih =>
    have ha := h a (by simp)
    simp only [insAfter, if_neg ha]
    rw [ih fun c hc => h c (by simp [hc])]

theorem insAfter_append (l1 l2 : List Blk) (o : Nat) (r : Blk) :
    insAfter (l1 ++ l2) o r = insAfter l1 o r ++ insAfter l2 o r := by
  induction l1 with
  | nil => rfl
  | cons a t ih =>
    by_cases ha : a.off = o <;> simp [List.cons_append, insAfter, ha, ih]

theorem insAfter_decomp (l1 : List Blk) (b : Blk) (l2 : List Blk) (o : Nat) (r : Blk)
    (h1 : ∀ c ∈ l1, c.off ≠ o) (hb : b.off = o) (h2 : ∀ c ∈ l2, c.off ≠ o) :
    insAfter (l1 ++ b :: l2) o r = l1 ++ b :: r :: l2 := by
  rw [insAfter_append, insAfter_eq_of_clean o r l1 h1]
  simp only [insAfter, if_pos hb]
  rw [insAfter_eq_of_clean o r l2 h2]

theorem lookup_decomp (l1 : List Blk) (b : Blk) (l2 : List Blk) (o : Nat)
    (h1 : ∀ c ∈ l1, c.off ≠ o) (hb : b.off = o) :
    lookupBlock (l1 ++ b :: l2) o = some b := by
  unfold lookupBlock
  rw [find?_append_left_none _ l1 _ (fun c hc => by simpa using h1 c hc)]
  simp [List.find?, hb]

end SmartMalloc

namespace SmartMalloc

/-! ### Locating blocks in a well-formed layout -/

theorem lookup_self (l1 : List Blk) (b : Blk) (l2 : List Blk) (pos m : Nat)
    (hw : walk pos (l1 ++ b :: l2) = some m) :
    lookupBlock (l1 ++ b :: l2) b.off = some b := by
  obtain ⟨h1, _⟩ := walk_decomp l1 b l2 pos m hw
  refine lookup_decomp l1 b l2 b.off ?_ rfl
  intro c hc
  have hb := walk_bounds l1 pos b.off h1 c hc
  have := H_pos
  omega

theorem getBlockHeader_decomp (l1 : List Blk) (b : Blk) (l2 : List Blk) (pos m p : Nat)
    (hw : walk pos (l1 ++ b :: l2) = some m) (hm : m ≤ PS)
    (hp1 : b.off + H ≤ p) (hp2 : p < endOf b) :
    getBlockHeader (l1 ++ b :: l2) p = some b := by
  obtain ⟨h1, h2⟩ := walk_decomp l1 b l2 pos m hw
  have hePS : endOf b ≤ m := walk_pos_le l2 (endOf b) m h2
  have hpPS : p < PS := by omega
  unfold getBlockHeader
  rw [if_pos hpPS]
  rw [find?_append_left_none]
  · have hb : (decide (b.off + H ≤ p ∧ p < b.off + H + b.size)) = true := by
      simp only [decide_eq_true_eq]
      unfold endOf at hp2
      omega
    simp [List.find?, hb]
  · intro c hc
    have hcb := walk_bounds l1 pos b.off h1 c hc
    simp only [decide_eq_false_iff_not]
    rintro ⟨a1, a2⟩
    omega

theorem getBlockHeader_lt (l : List Blk) (p : Nat) (b : Blk)
    (h : getBlockHeader l p = some b) : p < PS := by
  unfold getBlockHeader at h
  by_cases hp : p < PS
  · exact hp
  · rw [if_neg hp] at h
    exact absurd h (by simp)

theorem getBlockHeader_shape (l : List Blk) (p : Nat) (b : Blk)
    (h : getBlockHeader l p = some b) :
    b.off + H ≤ p ∧ p < endOf b ∧ ∃ l1 l2, l = l1 ++ b :: l2 := by
  have hp := getBlockHeader_lt l p b h
  unfold getBlockHeader at h
  rw [if_pos hp] at h
  obtain ⟨l1, l2, hl, hb, _⟩ := find?_decomp _ l b h
  simp only [decide_eq_true_eq] at hb
  exact ⟨hb.1, by simpa [endOf] using hb.2, l1, l2, hl⟩

/-- In a well-formed layout, the `get_previous_block` scan for a block with
end equal to `b.off` finds exactly the physical predecessor of `b`. -/
theorem find_prev : ∀ (l1 : List Blk) (b : Blk) (l2 : List Blk) (pos m : Nat),
    walk pos (l1 ++ b :: l2) = some m →
    (l1 ++ b :: l2).find? (fun c => decide (c.off + H + c.size = b.off)) = l1.getLast? := by
  intro l1
  induction l1 with
  | nil =>
    intro b l2 pos m hw
    obtain ⟨_, h2⟩ := walk_decomp [] b l2 pos m hw
    simp only [List.nil_append, List.getLast?_nil]
    apply find?_none_of_all
    intro c hc
    rcases List.mem_cons.mp hc with rfl | hc
    · have := H_pos
      simp only [decide_eq_false_iff_not]
      omega
    · have hb := walk_bounds l2 (endOf b) m h2 c hc
      have := H_pos
      simp only [decide_eq_false_iff_not]
      unfold endOf at hb
      omega
  | cons h t ih =>
    intro b l2 pos m hw
    have hw0 : walk pos ((h :: t) ++ b :: l2) = some m := hw
    simp only [List.cons_append, walk] at hw0
    by_cases hh : h.off = pos
    swap
    · rw [if_neg hh] at hw0
      exact absurd hw0 (by simp)
    rw [if_pos hh] at hw0
    cases t with
    | nil =>
      obtain ⟨hb1, _⟩ := walk_decomp [] b l2 (pos + H + h.size) m hw0
      simp only [walk] at hb1
      have hbo : b.off = pos + H + h.size := by
        injection hb1 with hb1
        omega
      have hf : (decide (h.off + H + h.size = b.off)) = true := by
        simp only [decide_eq_true_eq]
        omega
      simp [List.find?, hf]
    | cons h2 t' =>
      have hh2 : h2.off = pos + H + h.size ∧
          walk (h2.off + H + h2.size) (t' ++ b :: l2) = some m := by
        simp only [List.cons_append, walk] at hw0
        by_cases hx : h2.off = pos + H + h.size
        · rw [if_pos hx] at hw0
          exact ⟨hx, by rw [hx]; exact hw0⟩
        · rw [if_neg hx] at hw0
          exact absurd hw0 (by simp)
      obtain ⟨hx, hw1⟩ := hh2
      obtain ⟨hpre, _⟩ := walk_decomp t' b l2 (h2.off + H + h2.size) m hw1
      have hle : h2.off + H + h2.size ≤ b.off := walk_pos_le t' _ _ hpre
      have hf : (decide (h.off + H + h.size = b.off)) = false := by
        simp only [decide_eq_false_iff_not]
        have := H_pos
        omega
      have ihr := ih b l2 (pos + H + h.size) m hw0
      rw [List.getLast?_cons_cons]
      simp only [List.cons_append, List.find?, hf]
      exact ihr

end SmartMalloc

namespace SmartMalloc

theorem cons_to_concat (l1 : List Blk) (a : Blk) (l2 : List Blk) :
    l1 ++ a :: l2 = (l1 ++ [a]) ++ l2 := by simp

/-- Bounds extracted from a successful full-pool walk around a distinguished
block. -/
theorem walk_facts (l1 : List Blk) (b : Blk) (l2 : List Blk)
    (hw : walk 0 (l1 ++ b :: l2) = some PS) :
    (∀ c ∈ l1, c.off + H + c.size ≤ b.off) ∧
    (∀ c ∈ l2, endOf b ≤ c.off ∧ c.off + H + c.size ≤ PS) ∧ endOf b ≤ PS := by
  obtain ⟨h1, h2⟩ := walk_decomp l1 b l2 0 PS hw
  refine ⟨fun c hc => (walk_bounds l1 0 b.off h1 c hc).2,
          fun c hc => walk_bounds l2 (endOf b) PS h2 c hc,
          walk_pos_le l2 (endOf b) PS h2⟩

/-! ### Behaviour of `coalesce_with_next` on a well-formed layout -/

theorem coalesce_next_nil (σ : AState) (l1 : List Blk) (Y : Blk)
    (hσ : σ.blocks = l1 ++ [Y]) (hw : walk 0 σ.blocks = some PS) :
    coalesce_with_next σ Y.off = σ := by
  have hw' : walk 0 (l1 ++ Y :: ([] : List Blk)) = some PS := by rwa [hσ] at hw
  have hlk : lookupBlock σ.blocks Y.off = some Y := by
    rw [hσ]; exact lookup_self l1 Y [] 0 PS hw'
  have hend : endOf Y = PS := by
    obtain ⟨_, h2⟩ := walk_decomp l1 Y [] 0 PS hw'
    simpa [walk] using h2
  unfold coalesce_with_next
  split
  · rfl
  · next cur heq =>
    rw [hlk] at heq
    injection heq with heq
    subst heq
    rw [if_neg (by unfold endOf at hend; omega)]

theorem off_plus_eq_next (l1 : List Blk) (Y n : Blk) (l2 : List Blk)
    (hw : walk 0 (l1 ++ Y :: n :: l2) = some PS) : n.off = endOf Y := by
  obtain ⟨_, h2⟩ := walk_decomp l1 Y (n :: l2) 0 PS hw
  obtain ⟨h3, _⟩ := walk_decomp [] n l2 (endOf Y) PS h2
  simp only [walk] at h3
  injection h3 with h3
  omega

theorem lookup_next (σ : AState) (l1 : List Blk) (Y n : Blk) (l2 : List Blk)
    (hσ : σ.blocks = l1 ++ Y :: n :: l2) (hw : walk 0 σ.blocks = some PS) :
    lookupBlock σ.blocks (Y.off + H + Y.size) = some n := by
  have hw' : walk 0 (l1 ++ Y :: n :: l2) = some PS := by rwa [hσ] at hw
  have hno := off_plus_eq_next l1 Y n l2 hw'
  have hfacts := walk_facts l1 Y (n :: l2) hw'
  have heq : Y.off + H + Y.size = n.off := by unfold endOf at hno; omega
  rw [hσ, heq, cons_to_concat l1 Y (n :: l2)]
  refine lookup_decomp (l1 ++ [Y]) n l2 n.off ?_ rfl
  intro c hc
  have := H_pos
  rcases List.mem_append.mp hc with hc | hc
  · have := hfacts.1 c hc
    unfold endOf at hno
    omega
  · rcases List.mem_singleton.mp hc with rfl
    unfold endOf at hno
    omega

theorem coalesce_next_not_free (σ : AState) (l1 : List Blk) (Y n : Blk) (l2 : List Blk)
    (hσ : σ.blocks = l1 ++ Y :: n :: l2) (hw : walk 0 σ.blocks = some PS)
    (hn : n.is_free = false) :
    coalesce_with_next σ Y.off = σ := by
  have hw' : walk 0 (l1 ++ Y :: n :: l2) = some PS := by rwa [hσ] at hw
  have hlk : lookupBlock σ.blocks Y.off = some Y := by
    rw [hσ]; exact lookup_self l1 Y (n :: l2) 0 PS hw'
  have hlkn := lookup_next σ l1 Y n l2 hσ hw
  unfold coalesce_with_next
  split
  · rfl
  · next cur heq =>
    rw [hlk] at heq
    injection heq with heq
    subst heq
    by_cases hlt : Y.off + H + Y.size < PS
    · rw [if_pos hlt]
      split
      · rfl
      · next n2 heq2 =>
        rw [hlkn] at heq2
        injection heq2 with heq2
        subst heq2
        rw [if_neg (by simp [hn])]
    · rw [if_neg hlt]

theorem coalesce_next_merge (σ : AState) (l1 : List Blk) (Y n : Blk) (l2 : List Blk)
    (hσ : σ.blocks = l1 ++ Y :: n :: l2) (hw : walk 0 σ.blocks = some PS)
    (hn : n.is_free = true) :
    coalesce_with_next σ Y.off =
      { σ with blocks := l1 ++ { Y with size := Y.size + H + n.size } :: l2
               free_list := σ.free_list.erase (Y.off + H + Y.size) } := by
  have hw' : walk 0 (l1 ++ Y :: n :: l2) = some PS := by rwa [hσ] at hw
  have hlk : lookupBlock σ.blocks Y.off = some Y := by
    rw [hσ]; exact lookup_self l1 Y (n :: l2) 0 PS hw'
  have hlkn := lookup_next σ l1 Y n l2 hσ hw
  have hno := off_plus_eq_next l1 Y n l2 hw'
  have hfacts := walk_facts l1 Y (n :: l2) hw'
  have hnPS : Y.off + H + Y.size < PS := by
    have h1 := (hfacts.2.1 n (by simp)).2
    have := H_pos
    unfold endOf at hno
    omega
  have hblocks :
      removeBlock (mapAt σ.blocks Y.off fun c => { c with size := c.size + H + n.size })
          (Y.off + H + Y.size)
        = l1 ++ { Y with size := Y.size + H + n.size } :: l2 := by
    have := H_pos
    have hmap : mapAt σ.blocks Y.off (fun c => { c with size := c.size + H + n.size })
        = l1 ++ { Y with size := Y.size + H + n.size } :: n :: l2 := by
      rw [hσ]
      exact mapAt_decomp l1 Y (n :: l2) Y.off _
        (fun c hc => by have := hfacts.1 c hc; omega) rfl
        (fun c hc => by
          rcases List.mem_cons.mp hc with rfl | hc
          · unfold endOf at hno; omega
          · have h2 := (hfacts.2.1 c (by simp [hc])).1
            have h3 := (hfacts.2.1 n (by simp)).1
            unfold endOf at hno h2
            omega)
    rw [hmap, cons_to_concat l1 _ (n :: l2)]
    have heq : Y.off + H + Y.size = n.off := by unfold endOf at hno; omega
    rw [heq]
    have hc1 : ∀ c ∈ l1 ++ [{ Y with size := Y.size + H + n.size }], c.off ≠ n.off := by
      intro c hc
      rcases List.mem_append.mp hc with hc | hc
      · have := hfacts.1 c hc
        unfold endOf at hno
        omega
      · rcases List.mem_singleton.mp hc with rfl
        show Y.off ≠ n.off
        unfold endOf at hno
        omega
    have hc2 : ∀ c ∈ l2, c.off ≠ n.off := by
      intro c hc
      have h3 : endOf n ≤ c.off := by
        obtain ⟨_, h4⟩ := walk_decomp l1 Y (n :: l2) 0 PS hw'
        obtain ⟨_, h5⟩ := walk_decomp [] n l2 (endOf Y) PS h4
        exact (walk_bounds l2 (endOf n) PS h5 c hc).1
      unfold endOf at h3
      omega
    rw [removeBlock_decomp _ n l2 n.off hc1 rfl hc2]
    simp
  unfold coalesce_with_next
  split
  · next heq => rw [hlk] at heq; exact absurd heq (by simp)
  · next cur heq =>
    rw [hlk] at heq
    injection heq with heq
    subst heq
    rw [if_pos hnPS]
    split
    · next heq2 => rw [hlkn] at heq2; exact absurd heq2 (by simp)
    · next n2 heq2 =>
      rw [hlkn] at heq2
      injection heq2 with heq2
      subst heq2
      rw [if_pos hn, hblocks]

end SmartMalloc

namespace SmartMalloc

/-! ### Behaviour of `coalesce_with_previous` on a well-formed layout -/

theorem coalesce_prev_no_prev (σ : AState) (Y : Blk) (l2 : List Blk)
    (hσ : σ.blocks = Y :: l2) (hw : walk 0 σ.blocks = some PS) :
    coalesce_with_previous σ Y.off = σ := by
  have hw' : walk 0 (([] : List Blk) ++ Y :: l2) = some PS := by rwa [hσ] at hw
  have hlk : lookupBlock σ.blocks Y.off = some Y := by
    rw [hσ]; exact lookup_self [] Y l2 0 PS hw'
  have hfp : σ.blocks.find? (fun c => decide (c.off + H + c.size = Y.off)) = none := by
    rw [hσ]
    simpa using find_prev [] Y l2 0 PS hw'
  unfold coalesce_with_previous
  split
  · rfl
  · next cur heq =>
    rw [hlk] at heq
    injection heq with heq
    subst heq
    split
    · rfl
    · next prev heq2 =>
      rw [hfp] at heq2
      exact absurd heq2 (by simp)

theorem coalesce_prev_not_free (σ : AState) (l1 : List Blk) (h Y : Blk) (l2 : List Blk)
    (hσ : σ.blocks = (l1 ++ [h]) ++ Y :: l2) (hw : walk 0 σ.blocks = some PS)
    (hfree : h.is_free = false) :
    coalesce_with_previous σ Y.off = σ := by
  have hw' : walk 0 ((l1 ++ [h]) ++ Y :: l2) = some PS := by rwa [hσ] at hw
  have hlk : lookupBlock σ.blocks Y.off = some Y := by
    rw [hσ]; exact lookup_self (l1 ++ [h]) Y l2 0 PS hw'
  have hfp : σ.blocks.find? (fun c => decide (c.off + H + c.size = Y.off)) = some h := by
    rw [hσ, find_prev (l1 ++ [h]) Y l2 0 PS hw']
    exact List.getLast?_concat ..
  unfold coalesce_with_previous
  split
  · rfl
  · next cur heq =>
    rw [hlk] at heq
    injection heq with heq
    subst heq
    split
    · rfl
    · next prev heq2 =>
      rw [hfp] at heq2
      injection heq2 with heq2
      subst heq2
      rw [if_neg (by simp [hfree])]

theorem coalesce_prev_merge (σ : AState) (l1 : List Blk) (h Y : Blk) (l2 : List Blk)
    (hσ : σ.blocks = (l1 ++ [h]) ++ Y :: l2) (hw : walk 0 σ.blocks = some PS)
    (hfree : h.is_free = true) :
    coalesce_with_previous σ Y.off =
      { σ with blocks := l1 ++ { h with size := h.size + H + Y.size } :: l2
               free_list := σ.free_list.erase Y.off } := by
  have hw' : walk 0 ((l1 ++ [h]) ++ Y :: l2) = some PS := by rwa [hσ] at hw
  have hl : (l1 ++ [h]) ++ Y :: l2 = l1 ++ h :: Y :: l2 := by simp
  have hw2 : walk 0 (l1 ++ h :: Y :: l2) = some PS := by rwa [hl] at hw'
  have hfactsH := walk_facts l1 h (Y :: l2) hw2
  have hfactsY := walk_facts (l1 ++ [h]) Y l2 hw'
  have hYo : Y.off = endOf h := off_plus_eq_next l1 h Y l2 hw2
  have hlk : lookupBlock σ.blocks Y.off = some Y := by
    rw [hσ]; exact lookup_self (l1 ++ [h]) Y l2 0 PS hw'
  have hfp : σ.blocks.find? (fun c => decide (c.off + H + c.size = Y.off)) = some h := by
    rw [hσ, find_prev (l1 ++ [h]) Y l2 0 PS hw']
    exact List.getLast?_concat ..
  have hblocks :
      removeBlock (mapAt σ.blocks h.off fun c => { c with size := c.size + H + Y.size }) Y.off
        = l1 ++ { h with size := h.size + H + Y.size } :: l2 := by
    have := H_pos
    have hmap : mapAt σ.blocks h.off (fun c => { c with size := c.size + H + Y.size })
        = l1 ++ { h with size := h.size + H + Y.size } :: Y :: l2 := by
      rw [hσ, hl]
      exact mapAt_decomp l1 h (Y :: l2) h.off _
        (fun c hc => by have := hfactsH.1 c hc; omega) rfl
        (fun c hc => by
          have h2 := (hfactsH.2.1 c hc).1
          unfold endOf at h2
          omega)
    rw [hmap, cons_to_concat l1 _ (Y :: l2)]
    have hc1 : ∀ c ∈ l1 ++ [{ h with size := h.size + H + Y.size }], c.off ≠ Y.off := by
      intro c hc
      rcases List.mem_append.mp hc with hc | hc
      · have := hfactsH.1 c hc
        unfold endOf at hYo
        omega
      · rcases List.mem_singleton.mp hc with rfl
        show h.off ≠ Y.off
        unfold endOf at hYo
        omega
    have hc2 : ∀ c ∈ l2, c.off ≠ Y.off := by
      intro c hc
      have h2 := (hfactsY.2.1 c hc).1
      unfold endOf at h2
      omega
    rw [removeBlock_decomp _ Y l2 Y.off hc1 rfl hc2]
    simp
  unfold coalesce_with_previous
  split
  · next heq => rw [hlk] at heq; exact absurd heq (by simp)
  · next cur heq =>
    rw [hlk] at heq
    injection heq with heq
    subst heq
    split
    · next heq2 => rw [hfp] at heq2; exact absurd heq2 (by simp)
    · next prev heq2 =>
      rw [hfp] at heq2
      injection heq2 with heq2
      subst heq2
      rw [if_pos hfree, hblocks]

end SmartMalloc

namespace SmartMalloc

/-- After `coalesce_with_next` on a free block, the position still holds one
free block starting at the same offset and covering at least the same bytes. -/
theorem coalesce_next_shape (σ : AState) (l1 : List Blk) (Y : Blk) (l2 : List Blk)
    (hσ : σ.blocks = l1 ++ Y :: l2) (hw : walk 0 σ.blocks = some PS)
    (hYfree : Y.is_free = true) :
    ∃ Z L2, (coalesce_with_next σ Y.off).blocks = l1 ++ Z :: L2 ∧
      Z.is_free = true ∧ Z.off = Y.off ∧ endOf Y ≤ endOf Z ∧
      walk 0 (coalesce_with_next σ Y.off).blocks = some PS := by
  cases l2 with
  | nil =>
    rw [coalesce_next_nil σ l1 Y hσ hw]
    exact ⟨Y, [], hσ, hYfree, rfl, le_rfl, hw⟩
  | cons n l2' =>
    cases hn : n.is_free with
    | false =>
      rw [coalesce_next_not_free σ l1 Y n l2' hσ hw hn]
      exact ⟨Y, n :: l2', hσ, hYfree, rfl, le_rfl, hw⟩
    | true =>
      rw [coalesce_next_merge σ l1 Y n l2' hσ hw hn]
      have hw' : walk 0 (l1 ++ Y :: n :: l2') = some PS := by rwa [hσ] at hw
      obtain ⟨h1, h2⟩ := walk_decomp l1 Y (n :: l2') 0 PS hw'
      obtain ⟨h3, h4⟩ := walk_decomp [] n l2' (endOf Y) PS h2
      simp only [walk] at h3
      injection h3 with h3
      refine ⟨{ Y with size := Y.size + H + n.size }, l2', rfl, hYfree, rfl, ?_, ?_⟩
      · show Y.off + H + Y.size ≤ Y.off + H + (Y.size + H + n.size)
        omega
      · show walk 0 (l1 ++ { Y with size := Y.size + H + n.size } :: l2') = some PS
        refine walk_compose l1 { Y with size := Y.size + H + n.size } l2' 0 PS ?_ ?_
        · exact h1
        show walk (endOf { Y with size := Y.size + H + n.size }) l2' = some PS
        have hthis : endOf { Y with size := Y.size + H + n.size } = endOf n := by
          show Y.off + H + (Y.size + H + n.size) = n.off + H + n.size
          unfold endOf at h3
          omega
        rw [hthis]
        exact h4

/-- After `coalesce_with_previous` on a free block, some free block still
covers the freed payload. -/
theorem coalesce_prev_shape (σ : AState) (l1 : List Blk) (Y : Blk) (l2 : List Blk)
    (hσ : σ.blocks = l1 ++ Y :: l2) (hw : walk 0 σ.blocks = some PS)
    (hYfree : Y.is_free = true) (p : Nat) (hp1 : Y.off + H ≤ p) (hp2 : p < endOf Y) :
    ∃ L1 Z L2, (coalesce_with_previous σ Y.off).blocks = L1 ++ Z :: L2 ∧
      Z.is_free = true ∧ Z.off + H ≤ p ∧ p < endOf Z ∧
      walk 0 (coalesce_with_previous σ Y.off).blocks = some PS := by
  rcases List.eq_nil_or_concat l1 with rfl | ⟨l1', hh, hl1⟩
  · rw [coalesce_prev_no_prev σ Y l2 (by simpa using hσ) hw]
    exact ⟨[], Y, l2, by simpa using hσ, hYfree, hp1, hp2, hw⟩
  · rw [List.concat_eq_append] at hl1
    subst hl1
    cases hhfree : hh.is_free with
    | false =>
      rw [coalesce_prev_not_free σ l1' hh Y l2 hσ hw hhfree]
      exact ⟨l1' ++ [hh], Y, l2, hσ, hYfree, hp1, hp2, hw⟩
    | true =>
      rw [coalesce_prev_merge σ l1' hh Y l2 hσ hw hhfree]
      have hw' : walk 0 ((l1' ++ [hh]) ++ Y :: l2) = some PS := by rwa [hσ] at hw
      have hl : (l1' ++ [hh]) ++ Y :: l2 = l1' ++ hh :: Y :: l2 := by simp
      have hw2 : walk 0 (l1' ++ hh :: Y :: l2) = some PS := by rwa [hl] at hw'
      have hYo : Y.off = endOf hh := off_plus_eq_next l1' hh Y l2 hw2
      obtain ⟨hw1, _⟩ := walk_decomp l1' hh (Y :: l2) 0 PS hw2
      obtain ⟨_, hwl2⟩ := walk_decomp (l1' ++ [hh]) Y l2 0 PS hw'
      have := H_pos
      refine ⟨l1', { hh with size := hh.size + H + Y.size }, l2, rfl, hhfree, ?_, ?_, ?_⟩
      · show hh.off + H ≤ p
        unfold endOf at hYo
        omega
      · show p < hh.off + H + (hh.size + H + Y.size)
        unfold endOf at hYo hp2
        omega
      · show walk 0 (l1' ++ { hh with size := hh.size + H + Y.size } :: l2) = some PS
        refine walk_compose l1' { hh with size := hh.size + H + Y.size } l2 0 PS ?_ ?_
        · exact hw1
        show walk (endOf { hh with size := hh.size + H + Y.size }) l2 = some PS
        have hthis : endOf { hh with size := hh.size + H + Y.size } = endOf Y := by
          show hh.off + H + (hh.size + H + Y.size) = Y.off + H + Y.size
          unfold endOf at hYo
          omega
        rw [hthis]
        exact hwl2

/-- Reduction of `xfree` at a non-null pointer. -/
theorem xfree_some (σ : AState) (q : Nat) :
    xfree σ (some q) =
      if PS ≤ q then (.err .invalidPtr, σ)
      else
        match getBlockHeader σ.blocks q with
        | none => (.err .invalidPtr, σ)
        | some b =>
          if b.is_free then (.err .doubleFree, σ)
          else
            (.ok, coalesce_with_previous (coalesce_with_next
              { σ with blocks := setFreeFlag σ.blocks b.off true
                       free_list := b.off :: σ.free_list } b.off) b.off) := rfl

/-- A successful `xfree` leaves a free block whose payload still covers the
freed pointer, inside a layout that still walks to `POOL_SIZE`. -/
theorem xfree_ok_decomp (σ : AState) (p : Nat) (b : Blk) (l1 l2 : List Blk)
    (hσ : σ.blocks = l1 ++ b :: l2) (hw : walk 0 σ.blocks = some PS)
    (hr1 : b.off + H ≤ p) (hr2 : p < endOf b) (hbfree : b.is_free = false) :
    (xfree σ (some p)).1 = .ok ∧
    ∃ L1 Z L2, (xfree σ (some p)).2.blocks = L1 ++ Z :: L2 ∧
      Z.is_free = true ∧ Z.off + H ≤ p ∧ p < endOf Z ∧
      walk 0 (xfree σ (some p)).2.blocks = some PS := by
  have hw' : walk 0 (l1 ++ b :: l2) = some PS := by rwa [hσ] at hw
  have hfacts := walk_facts l1 b l2 hw'
  have hpPS : p < PS := by
    have h1 := hfacts.2.2
    unfold endOf at h1 hr2
    omega
  have hget : getBlockHeader σ.blocks p = some b := by
    rw [hσ]; exact getBlockHeader_decomp l1 b l2 0 PS p hw' le_rfl hr1 hr2
  have hmap : setFreeFlag σ.blocks b.off true = l1 ++ { b with is_free := true } :: l2 := by
    rw [hσ]
    unfold setFreeFlag
    refine mapAt_decomp l1 b l2 b.off _ ?_ rfl ?_
    · intro c hc
      have := hfacts.1 c hc
      have := H_pos
      omega
    · intro c hc
      have h2 := (hfacts.2.1 c hc).1
      have := H_pos
      unfold endOf at h2
      omega
  have hwB : walk 0 (l1 ++ { b with is_free := true } :: l2) = some PS := by
    obtain ⟨h1, h2⟩ := walk_decomp l1 b l2 0 PS hw'
    exact walk_compose l1 _ l2 0 PS h1 h2
  rw [xfree_some]
  rw [if_neg (show ¬ PS ≤ p by omega)]
  split
  · next heq => rw [hget] at heq; exact absurd heq (by simp)
  · next b' heq =>
    rw [hget] at heq
    injection heq with heq
    subst heq
    rw [if_neg (by simp [hbfree])]
    refine ⟨rfl, ?_⟩
    have hs1 : ({ σ with blocks := setFreeFlag σ.blocks b.off true
                         free_list := b.off :: σ.free_list } : AState).blocks
        = l1 ++ { b with is_free := true } :: l2 := hmap
    obtain ⟨Z1, L2n, hb2, hZ1free, hZ1off, hZ1end, hw2⟩ :=
      coalesce_next_shape _ l1 { b with is_free := true } l2 hs1
        (by show walk 0 (setFreeFlag σ.blocks b.off true) = some PS
            rw [hmap]; exact hwB)
        rfl
    have hb2' : (coalesce_with_next
        { σ with blocks := setFreeFlag σ.blocks b.off true
                 free_list := b.off :: σ.free_list } b.off).blocks = l1 ++ Z1 :: L2n := hb2
    have hw2' : walk 0 (coalesce_with_next
        { σ with blocks := setFreeFlag σ.blocks b.off true
                 free_list := b.off :: σ.free_list } b.off).blocks = some PS := hw2
    have hZ1off' : Z1.off = b.off := hZ1off
    have hZ1end' : endOf b ≤ endOf Z1 := hZ1end
    obtain ⟨L1, Z, L2, hfin, hZfree, hZp1, hZp2, hwfin⟩ :=
      coalesce_prev_shape _ l1 Z1 L2n hb2' hw2' hZ1free p
        (by rw [hZ1off']; exact hr1)
        (lt_of_lt_of_le hr2 hZ1end')
    rw [hZ1off'] at hfin hwfin
    exact ⟨L1, Z, L2, hfin, hZfree, hZp1, hZp2, hwfin⟩

end SmartMalloc

namespace SmartMalloc

/-- Claim C3: a `free(p)` whose pointer resolves to a block already marked
free is rejected as a double-free with no state mutation; consequently, on a
well-formed arena, freeing an allocated block and then immediately freeing
the same pointer again makes the second call a rejected double-free that
leaves the state exactly as the first free left it. -/
theorem c3_double_free_safety (σ : AState) (p : Nat) (b : Blk)
    (hb : getBlockHeader σ.blocks p = some b) :
    (b.is_free = true → xfree σ (some p) = (.err .doubleFree, σ)) ∧
    (b.is_free = false → walk 0 σ.blocks = some PS →
      xfree ((xfree σ (some p)).2) (some p)
        = (.err .doubleFree, (xfree σ (some p)).2)) := by
  have hpPS := getBlockHeader_lt σ.blocks p b hb
  constructor
  · intro hfree
    rw [xfree_some, if_neg (show ¬ PS ≤ p by omega)]
    split
    · next heq => rw [hb] at heq; exact absurd heq (by simp)
    · next b2 heq =>
      rw [hb] at heq
      injection heq with heq
      subst heq
      rw [if_pos hfree]
  · intro hfree hw
    obtain ⟨hr1, hr2, l1, l2, hσ⟩ := getBlockHeader_shape σ.blocks p b hb
    obtain ⟨hok, L1, Z, L2, hfin, hZfree, hZp1, hZp2, hwfin⟩ :=
      xfree_ok_decomp σ p b l1 l2 hσ hw hr1 hr2 hfree
    have hget2 : getBlockHeader (xfree σ (some p)).2.blocks p = some Z := by
      rw [hfin] at hwfin ⊢
      exact getBlockHeader_decomp L1 Z L2 0 PS p hwfin le_rfl hZp1 hZp2
    rw [xfree_some, if_neg (show ¬ PS ≤ p by omega)]
    split
    · next heq => rw [hget2] at heq; exact absurd heq (by simp)
    · next b2 heq =>
      rw [hget2] at heq
      injection heq with heq
      subst heq
      rw [if_pos hZfree]

/-- Witness for C3 at a concrete input: allocate 100 bytes from the fresh
pool (payload pointer 48), free it once, and the second free of pointer 48
is rejected as a double-free without changing the state. -/
theorem c3_double_free_safety_witness :
    xfree ((xfree (run [Op.malloc 100]) (some 48)).2) (some 48)
      = (.err .doubleFree, (xfree (run [Op.malloc 100]) (some 48)).2) :=
  (c3_double_free_safety (run [Op.malloc 100]) 48 ⟨0, false, 100, 0, 0, 0⟩ rfl).2 rfl rfl

/-- Claim C7, counterexample: pointer 49 lies strictly inside the payload of
the allocated block at offset 0 (its payload starts at 48), so the claim
says `free(49)` must be rejected as an invalid pointer with no state
mutation.  Instead the header-lookup scan resolves 49 to the containing
block, the call succeeds, and the block is freed (and coalesced with its
free successor into one full-pool free block). -/
theorem c7_counterexample :
    (xfree (run [Op.malloc 100]) (some 49)).1 = ARes.ok ∧
    (xfree (run [Op.malloc 100]) (some 49)).2.blocks
      = [⟨0, true, 2097104, 0, 0, 0⟩] := ⟨rfl, rfl⟩

/-- Claim C7 as amended: a pointer inside the arena that does not fall in
any block's payload byte range (for example a pointer into a header, or
just past a payload) is rejected as invalid with no state mutation, while a
pointer anywhere inside an allocated block's payload resolves to the
containing block and the free succeeds. -/
theorem c7_invalid_pointer_amended (σ : AState) (p : Nat) (hp : p < PS) :
    (getBlockHeader σ.blocks p = none → xfree σ (some p) = (.err .invalidPtr, σ)) ∧
    (∀ b, getBlockHeader σ.blocks p = some b → b.is_free = false →
      (xfree σ (some p)).1 = .ok) := by
  constructor
  · intro hnone
    rw [xfree_some, if_neg (show ¬ PS ≤ p by omega), hnone]
  · intro b hb hfree
    rw [xfree_some, if_neg (show ¬ PS ≤ p by omega)]
    split
    · next heq => rw [hb] at heq; exact absurd heq (by simp)
    · next b2 heq =>
      rw [hb] at heq
      injection heq with heq
      subst heq
      rw [if_neg (by simp [hfree])]

/-- Witness for the amended C7: pointer 0 points at the first block's
header, not into any payload, and is rejected without mutation. -/
theorem c7_invalid_pointer_amended_witness :
    xfree initState (some 0) = (.err .invalidPtr, initState) :=
  (c7_invalid_pointer_amended initState 0 (by decide)).1 rfl

/-- Claim C10: `xrealloc` performs no free-status check on its keep path:
if the pointer resolves to a block that is already marked free and the new
size is positive and at most the block's size, the call returns the same
pointer successfully with no state mutation, instead of rejecting the
operation on a freed block. -/
theorem c10_resize_skips_free_check (σ : AState) (q n : Nat) (b : Blk)
    (hb : getBlockHeader σ.blocks q = some b) (hfree : b.is_free = true)
    (h0 : 0 < n) (hn : n ≤ b.size) :
    xrealloc σ (some q) n = (.ptr q, σ) := by
  have hq := getBlockHeader_lt σ.blocks q b hb
  simp only [xrealloc]
  rw [if_neg (show ¬ n = 0 by omega)]
  rw [if_neg (show ¬ PS ≤ q by omega)]
  split
  · next heq => rw [hb] at heq; exact absurd heq (by simp)
  · next b2 heq =>
    rw [hb] at heq
    injection heq with heq
    subst heq
    rw [if_pos hn]

/-- Witness for C10: the fresh pool's only block is free; resizing its
payload pointer 48 down to 10 bytes succeeds and leaves the free block
free and on the free list (the state is unchanged). -/
theorem c10_resize_skips_free_check_witness :
    xrealloc initState (some 48) 10 = (.ptr 48, initState) :=
  c10_resize_skips_free_check initState 48 10 ⟨0, true, PS - H, 0, 0, 0⟩
    rfl rfl (by decide) (by decide)

/-- Claim C1 (evaluation at the failing input): after `xmalloc(100)`,
`xmalloc(200)` and `xfree` of the first pointer, the physical walk reaches
exactly `POOL_SIZE`; the subsequent `xmalloc_aligned(40, 1)` picks the
100-byte free block, takes the no-split branch, and shrinks `block->size`
to 40, stranding 60 bytes: the walk from offset 0 steps to offset 88,
finds no header there, and never reaches `POOL_SIZE`. -/
theorem c1_contiguity_broken_by_aligned_alloc :
    walk 0 (run [Op.malloc 100, Op.malloc 200, Op.free (some 48)]).blocks = some PS ∧
    walk 0 (run [Op.malloc 100, Op.malloc 200, Op.free (some 48),
                 Op.mallocAligned 40 1 0]).blocks = none := ⟨rfl, rfl⟩

/-- Claim C6: on an arena holding a run of three consecutive free blocks
(at offsets 0, 148, 296) before an allocated block, a single `defragment()`
sweep merges only the first pair — the merged block is not re-examined
against its new successor — leaving two adjacent free blocks; a second
`defragment()` call finishes the consolidation. -/
theorem c6_defragment_single_sweep :
    walk 0 threeFreeState.blocks = some PS ∧
    threeFreeState.blocks.countP (fun c => c.is_free) = 3 ∧
    (defragment threeFreeState).blocks
      = [⟨0, true, 248, 10, 0, 0⟩, ⟨296, true, 100, 12, 0, 0⟩,
         ⟨444, false, 2096660, 13, 0, 0⟩] ∧
    freeCount (defragment threeFreeState) = 2 ∧
    (defragment (defragment threeFreeState)).blocks
      = [⟨0, true, 396, 10, 0, 0⟩, ⟨444, false, 2096660, 13, 0, 0⟩] := by
  refine ⟨rfl, rfl, rfl, rfl, rfl⟩

/-- Claim C9, counterexample: `block_id` 1 is assigned twice in one process.
From the fresh pool, `xmalloc(100)` splits and creates a block with id 1;
`xfree_all` resets the counter to 1 and re-creates the initial block with
id 0; the next `xmalloc(100)` splits again and creates another block with
id 1.  The creation trace is `[0, 1, 0, 1]`, which has duplicates. -/
theorem c9_counterexample :
    (run [Op.malloc 100, Op.freeAll, Op.malloc 100]).created = [0, 1, 0, 1] ∧
    ¬ (run [Op.malloc 100, Op.freeAll, Op.malloc 100]).created.Nodup := by
  refine ⟨rfl, by decide⟩

end SmartMalloc

namespace SmartMalloc

/-! ### The best-fit scan -/

theorem lookup_mem (l : List Blk) (o : Nat) (b : Blk)
    (h : lookupBlock l o = some b) : b ∈ l :=
  List.mem_of_find?_eq_some h

theorem size_lt_SIZEMAX (l : List Blk) (hw : walk 0 l = some PS) (b : Blk)
    (hb : b ∈ l) : b.size < SIZEMAX := by
  have h1 := (walk_bounds l 0 PS hw b hb).2
  have h2 : PS < SIZEMAX := by decide
  omega

theorem ffbGo_bound_mono (σ : AState) (s : Nat) :
    ∀ (l : List Nat) (acc : Option (Nat × Blk)),
      bound (ffbGo σ s l acc) ≤ bound acc := by
  intro l
  induction l with
  | nil => intro acc; exact le_rfl
  | cons o t ih =>
    intro acc
    simp only [ffbGo]
    split
    · exact ih acc
    · next b heq =>
      by_cases hcond :
          (b.is_free && decide (s ≤ b.size) && decide (b.size < bound acc)) = true
      · rw [if_pos hcond]
        have h1 := ih (some (o, b))
        have h2 : b.size < bound acc := by
          simp only [Bool.and_eq_true, decide_eq_true_eq] at hcond
          exact hcond.2
        have h3 : bound (some (o, b)) = b.size := rfl
        omega
      · rw [if_neg hcond]
        exact ih acc

theorem ffbGo_beats (σ : AState) (s : Nat) :
    ∀ (l : List Nat) (acc : Option (Nat × Blk)) (o2 : Nat) (b2 : Blk),
      o2 ∈ l → lookupBlock σ.blocks o2 = some b2 → b2.is_free = true → s ≤ b2.size →
      bound (ffbGo σ s l acc) ≤ b2.size := by
  intro l
  induction l with
  | nil => intro acc o2 b2 h; simp at h
  | cons o t ih =>
    intro acc o2 b2 hmem hlk2 hfree2 hs2
    simp only [ffbGo]
    split
    · next heq =>
      rcases List.mem_cons.mp hmem with rfl | hmem
      · rw [hlk2] at heq; exact absurd heq (by simp)
      · exact ih acc o2 b2 hmem hlk2 hfree2 hs2
    · next b heq =>
      rcases List.mem_cons.mp hmem with rfl | hmem
      · rw [hlk2] at heq
        injection heq with heq
        subst heq
        by_cases hcond :
            (b2.is_free && decide (s ≤ b2.size) && decide (b2.size < bound acc)) = true
        · rw [if_pos hcond]
          have h1 := ffbGo_bound_mono σ s t (some (o2, b2))
          have h3 : bound (some (o2, b2)) = b2.size := rfl
          omega
        · rw [if_neg hcond]
          simp only [Bool.and_eq_true, decide_eq_true_eq, hfree2, true_and] at hcond
          have h3 : ¬ b2.size < bound acc := fun h => hcond ⟨hs2, h⟩
          have h1 := ffbGo_bound_mono σ s t acc
          omega
      · by_cases hcond :
            (b.is_free && decide (s ≤ b.size) && decide (b.size < bound acc)) = true
        · rw [if_pos hcond]
          exact ih (some (o, b)) o2 b2 hmem hlk2 hfree2 hs2
        · rw [if_neg hcond]
          exact ih acc o2 b2 hmem hlk2 hfree2 hs2

theorem ffbGo_some_src (σ : AState) (s : Nat) :
    ∀ (l : List Nat) (acc : Option (Nat × Blk)) (r : Nat × Blk),
      ffbGo σ s l acc = some r →
      acc = some r ∨ (r.1 ∈ l ∧ lookupBlock σ.blocks r.1 = some r.2 ∧
        r.2.is_free = true ∧ s ≤ r.2.size) := by
  intro l
  induction l with
  | nil => intro acc r h; exact Or.inl h
  | cons o t ih =>
    intro acc r h
    simp only [ffbGo] at h
    split at h
    · rcases ih acc r h with h1 | h2
      · exact Or.inl h1
      · exact Or.inr ⟨by simp [h2.1], h2.2.1, h2.2.2⟩
    · next b heq =>
      by_cases hcond :
          (b.is_free && decide (s ≤ b.size) && decide (b.size < bound acc)) = true
      · rw [if_pos hcond] at h
        rcases ih (some (o, b)) r h with h1 | h2
        · injection h1 with h1
          simp only [Bool.and_eq_true, decide_eq_true_eq] at hcond
          refine Or.inr ⟨?_, ?_, ?_, ?_⟩ <;> rw [← h1]
          · simp
          · exact heq
          · exact hcond.1.1
          · exact hcond.1.2
        · exact Or.inr ⟨by simp [h2.1], h2.2.1, h2.2.2⟩
      · rw [if_neg hcond] at h
        rcases ih acc r h with h1 | h2
        · exact Or.inl h1
        · exact Or.inr ⟨by simp [h2.1], h2.2.1, h2.2.2⟩

theorem ffbGo_no_qual (σ : AState) (s : Nat) :
    ∀ (l : List Nat) (acc : Option (Nat × Blk)),
      (∀ o ∈ l, ∀ b, lookupBlock σ.blocks o = some b →
        ¬(b.is_free = true ∧ s ≤ b.size)) →
      ffbGo σ s l acc = acc := by
  intro l
  induction l with
  | nil => intro acc _; rfl
  | cons o t ih =>
    intro acc hq
    simp only [ffbGo]
    split
    · exact ih acc fun o2 h2 => hq o2 (by simp [h2])
    · next b heq =>
      have hcf :
          ¬ (b.is_free && decide (s ≤ b.size) && decide (b.size < bound acc)) = true := by
        intro hc
        simp only [Bool.and_eq_true, decide_eq_true_eq] at hc
        exact hq o (by simp) b heq ⟨hc.1.1, hc.1.2⟩
      rw [if_neg hcf]
      exact ih acc fun o2 h2 => hq o2 (by simp [h2])

end SmartMalloc

namespace SmartMalloc

/-- Claim C2: for a request `s` with `0 < s ≤ POOL_SIZE - header_size` on a
well-formed arena, `xmalloc` scans every free-list entry and uses the
smallest free block of size at least `s`; if no entry qualifies it fails
with the out-of-memory error (a constructor distinct from the zero-size and
oversized validation errors), leaving the state unchanged. -/
theorem c2_best_fit (σ : AState) (s : Nat)
    (h0 : 0 < s) (hcap : s ≤ PS - H) (hw : walk 0 σ.blocks = some PS) :
    ((∀ o ∈ σ.free_list, ∀ b, lookupBlock σ.blocks o = some b →
        ¬(b.is_free = true ∧ s ≤ b.size)) →
      xmalloc σ s = (.err .outOfMemory, σ)) ∧
    ((xmalloc σ s).1 = .err .outOfMemory →
      ∀ o ∈ σ.free_list, ∀ b, lookupBlock σ.blocks o = some b →
        ¬(b.is_free = true ∧ s ≤ b.size)) ∧
    (∀ o b, find_free_block σ s = some (o, b) →
      o ∈ σ.free_list ∧ lookupBlock σ.blocks o = some b ∧
      b.is_free = true ∧ s ≤ b.size ∧
      (∀ o2 ∈ σ.free_list, ∀ b2, lookupBlock σ.blocks o2 = some b2 →
        b2.is_free = true → s ≤ b2.size → b.size ≤ b2.size) ∧
      (xmalloc σ s).1 = .ptr (o + H)) := by
  refine ⟨?_, ?_, ?_⟩
  · intro hnoq
    have hfind : find_free_block σ s = none := by
      unfold find_free_block
      exact ffbGo_no_qual σ s σ.free_list none hnoq
    simp only [xmalloc, malloc_core]
    rw [if_neg (show ¬ s = 0 by omega), if_neg (show ¬ PS - H < s by omega), hfind]
  · intro herr o hmem b hlk
    rintro ⟨hfree, hsz⟩
    rcases hf : find_free_block σ s with _ | ⟨o1, b1⟩
    · have hbeats := ffbGo_beats σ s σ.free_list none o b hmem hlk hfree hsz
      unfold find_free_block at hf
      rw [hf] at hbeats
      have hlt := size_lt_SIZEMAX σ.blocks hw b (lookup_mem σ.blocks o b hlk)
      have hb : bound none = SIZEMAX := rfl
      omega
    · simp only [xmalloc, malloc_core] at herr
      rw [if_neg (show ¬ s = 0 by omega), if_neg (show ¬ PS - H < s by omega), hf] at herr
      exact absurd herr (by simp)
  · intro o b hf
    have hsrc := ffbGo_some_src σ s σ.free_list none (o, b) hf
    rcases hsrc with h1 | ⟨hmem, hlk, hfree, hsz⟩
    · exact absurd h1 (by simp)
    refine ⟨hmem, hlk, hfree, hsz, ?_, ?_⟩
    · intro o2 hmem2 b2 hlk2 hfree2 hs2
      have hbeats := ffbGo_beats σ s σ.free_list none o2 b2 hmem2 hlk2 hfree2 hs2
      unfold find_free_block at hf
      rw [hf] at hbeats
      exact hbeats
    · simp only [xmalloc, malloc_core]
      rw [if_neg (show ¬ s = 0 by omega), if_neg (show ¬ PS - H < s by omega), hf]

/-- Witness for C2: after one 100-byte allocation the free list holds the
2096956-byte remainder block; requesting 2096957 bytes (within pool
capacity) finds no qualifying block and fails with out-of-memory, leaving
the state unchanged. -/
theorem c2_best_fit_witness :
    xmalloc (run [Op.malloc 100]) 2096957
      = (.err .outOfMemory, run [Op.malloc 100]) := by
  refine (c2_best_fit (run [Op.malloc 100]) 2096957 (by decide) (by decide) rfl).1 ?_
  intro o hmem b hlk
  have hfl : (run [Op.malloc 100]).free_list = [148] := rfl
  rw [hfl] at hmem
  rcases List.mem_singleton.mp hmem with rfl
  have hb : lookupBlock (run [Op.malloc 100]).blocks 148
      = some ⟨148, true, 2096956, 1, 0, 0⟩ := rfl
  rw [hb] at hlk
  injection hlk with hlk
  subst hlk
  rintro ⟨_, hsz⟩
  exact absurd hsz (by decide)

/-- Claim C4: for a successful allocation, a split happens exactly when the
chosen block's payload exceeds the request by more than
`sizeof(BlockHeader) + 32` bytes; the split carves a trailing free block
with a fresh `block_id` and size `leftover - header`, pushes its offset on
the free list, and shrinks the allocated block to exactly `s`; otherwise
the block is handed over whole with its size unchanged. -/
theorem malloc_core_found (σ : AState) (s o : Nat) (b : Blk)
    (h0 : ¬ s = 0) (hcap : ¬ PS - H < s) (hf : find_free_block σ s = some (o, b)) :
    malloc_core σ s = (.ptr (o + H), alloc_found σ o b s) := by
  unfold malloc_core
  rw [if_neg h0, if_neg hcap, hf]

theorem c4_split_policy (σ : AState) (s o : Nat) (b : Blk)
    (h0 : 0 < s) (hcap : s ≤ PS - H)
    (hf : find_free_block σ s = some (o, b)) :
    (s + (H + 32) < b.size →
      xmalloc σ s = (.ptr (o + H),
        { σ with
          blocks := splitIns σ.blocks o
            { b with is_free := false, alignment := 0, padding := 0, size := s }
            ⟨o + H + s, true, b.size - s - H, σ.next_block_id, 0, 0⟩
          free_list := (o + H + s) :: σ.free_list.erase o
          next_block_id := σ.next_block_id + 1
          created := σ.created ++ [σ.next_block_id] })) ∧
    (¬ s + (H + 32) < b.size →
      xmalloc σ s = (.ptr (o + H),
        { σ with
          blocks := updBlock σ.blocks o
            { b with is_free := false, alignment := 0, padding := 0 }
          free_list := σ.free_list.erase o })) := by
  constructor
  · intro hcond
    unfold xmalloc
    rw [malloc_core_found σ s o b (by omega) (by omega) hf]
    unfold alloc_found
    dsimp only
    rw [if_pos hcond]
    rfl
  · intro hcond
    unfold xmalloc
    rw [malloc_core_found σ s o b (by omega) (by omega) hf]
    unfold alloc_found
    dsimp only
    rw [if_neg hcond]

/-- Witness for C4 (split branch): allocating 100 bytes from the fresh pool
splits the full-pool free block, creating the remainder block with the
fresh id 1 at offset 148 and shrinking the allocated block to 100 bytes. -/
theorem c4_split_policy_witness :
    xmalloc initState 100 = (.ptr 48,
      { blocks := [⟨0, false, 100, 0, 0, 0⟩, ⟨148, true, 2096956, 1, 0, 0⟩]
        free_list := [148]
        next_block_id := 2
        created := [0, 1]
        mem := initState.mem }) :=
  (c4_split_policy initState 100 0 ⟨0, true, PS - H, 0, 0, 0⟩
    (by decide) (by decide) rfl).1 (by decide)

/-- Claim C8: `xcalloc(num, sz)` detects overflow of `num * sz` and fails
with the distinct overflow error before touching the arena; every byte of
the region returned by a successful call reads as zero. -/
theorem c8_calloc_overflow_and_zeroing (σ : AState) (num sz : Nat) :
    (SIZEMAX < num * sz → xcalloc σ num sz = (.err .overflow, σ)) ∧
    (∀ p σ2, xcalloc σ num sz = (.ptr p, σ2) →
      ∀ i, i < num * sz → σ2.mem (p + i) = 0) := by
  constructor
  · intro hover
    have hnum : 0 < num := by
      rcases Nat.eq_zero_or_pos num with rfl | h
      · simp at hover
      · exact h
    have hdiv : SIZEMAX / num < sz := by
      rw [Nat.div_lt_iff_lt_mul hnum]
      exact Nat.mul_comm num sz ▸ hover
    simp only [xcalloc]
    rw [if_pos ⟨hnum, hdiv⟩]
  · intro p σ2 hok i hi
    simp only [xcalloc] at hok
    split at hok
    · simp at hok
    split at hok
    · simp at hok
    split at hok
    · simp at hok
    split at hok
    · simp at hok
    · next o b heq =>
      rw [Prod.mk.injEq] at hok
      obtain ⟨hp, hs⟩ := hok
      injection hp with hp
      subst hp
      subst hs
      show (if o + H ≤ o + H + i ∧ o + H + i < o + H + num * sz then 0
            else (alloc_found σ o b (num * sz)).mem (o + H + i)) = 0
      rw [if_pos (by omega)]

/-- Witness for C8: `xcalloc(2^63, 4)` overflows 64-bit sizing and is
rejected with the overflow error and no mutation; `xcalloc(5, 200)`
succeeds at pointer 48 and the first byte of the returned region is zero. -/
theorem c8_calloc_overflow_and_zeroing_witness :
    xcalloc initState (2 ^ 63) 4 = (.err .overflow, initState) ∧
    ((xcalloc initState 5 200).2).mem (48 + 0) = 0 := by
  constructor
  · exact (c8_calloc_overflow_and_zeroing initState (2 ^ 63) 4).1 (by decide)
  · exact (c8_calloc_overflow_and_zeroing initState 5 200).2 48
      ((xcalloc initState 5 200).2) rfl 0 (by decide)

end SmartMalloc

namespace SmartMalloc

theorem noAdj_tail (x : Blk) (rest : List Blk)
    (h : noAdj (x :: rest) = true) : noAdj rest = true := by
  cases rest with
  | nil => rfl
  | cons y t =>
    simp only [noAdj, Bool.and_eq_true] at h
    exact h.2

theorem noAdj_split : ∀ (l1 : List Blk) (a c : Blk) (l2 : List Blk),
    noAdj (l1 ++ a :: c :: l2) = true → (a.is_free && c.is_free) = false := by
  intro l1
  induction l1 with
  | nil =>
    intro a c l2 h
    by_cases hac : (a.is_free && c.is_free) = true
    · exfalso
      simp only [List.nil_append, noAdj, hac, Bool.not_true, Bool.false_and] at h
      exact absurd h (by simp)
    · simpa using hac
  | cons x t ih =>
    intro a c l2 h
    exact ih a c l2 (noAdj_tail x (t ++ a :: c :: l2) h)

theorem walk_swap (l1 : List Blk) (X Y : Blk) (l2 : List Blk) (pos : Nat)
    (hoff : X.off = Y.off) (hsz : X.size = Y.size) :
    walk pos (l1 ++ X :: l2) = walk pos (l1 ++ Y :: l2) := by
  rw [walk_append, walk_append]
  apply congrArg
  funext m
  simp only [walk, hoff, hsz]

theorem alloc_found_split (σ : AState) (o : Nat) (b : Blk) (s : Nat)
    (hcond : s + (H + 32) < b.size) :
    alloc_found σ o b s =
      { σ with
        blocks := splitIns σ.blocks o
          { b with is_free := false, alignment := 0, padding := 0, size := s }
          ⟨o + H + s, true, b.size - s - H, σ.next_block_id, 0, 0⟩
        free_list := (o + H + s) :: σ.free_list.erase o
        next_block_id := σ.next_block_id + 1
        created := σ.created ++ [σ.next_block_id] } := by
  unfold alloc_found
  dsimp only
  rw [if_pos hcond]
  rfl

theorem alloc_found_whole (σ : AState) (o : Nat) (b : Blk) (s : Nat)
    (hcond : ¬ s + (H + 32) < b.size) :
    alloc_found σ o b s =
      { σ with
        blocks := updBlock σ.blocks o
          { b with is_free := false, alignment := 0, padding := 0 }
        free_list := σ.free_list.erase o } := by
  unfold alloc_found
  dsimp only
  rw [if_neg hcond]

end SmartMalloc

namespace SmartMalloc

/-- Claim C5: on a well-formed arena with no two adjacent free blocks (the
shape the automatic one-hop coalescing of `xfree` maintains), a successful
`xmalloc(s)` followed immediately by `xfree` of the returned pointer
succeeds and restores the capacity accounting: the walk still reaches
`POOL_SIZE`, and both the number of free blocks and the total free bytes
return to their pre-allocation values. -/
theorem c5_round_trip (σ : AState) (s p : Nat) (σ1 : AState)
    (hw : walk 0 σ.blocks = some PS) (hadj : noAdj σ.blocks = true)
    (hm : xmalloc σ s = (.ptr p, σ1)) :
    (xfree σ1 (some p)).1 = .ok ∧
    freeCount (xfree σ1 (some p)).2 = freeCount σ ∧
    freeBytes (xfree σ1 (some p)).2 = freeBytes σ ∧
    walk 0 ((xfree σ1 (some p)).2).blocks = some PS := by
  by_cases hs0 : s = 0
  · unfold xmalloc malloc_core at hm
    rw [if_pos hs0] at hm
    exact absurd hm (by simp)
  by_cases hcap : PS - H < s
  · unfold xmalloc malloc_core at hm
    rw [if_neg hs0, if_pos hcap] at hm
    exact absurd hm (by simp)
  rcases hf : find_free_block σ s with _ | ⟨o, b⟩
  · unfold xmalloc malloc_core at hm
    rw [if_neg hs0, if_neg hcap, hf] at hm
    exact absurd hm (by simp)
  have hm2 : (ARes.ptr (o + H), alloc_found σ o b s) = (.ptr p, σ1) := by
    rw [← malloc_core_found σ s o b hs0 hcap hf]
    exact hm
  rw [Prod.mk.injEq] at hm2
  obtain ⟨hp, hσ1⟩ := hm2
  injection hp with hp
  subst hp
  subst hσ1
  rcases ffbGo_some_src σ s σ.free_list none (o, b) hf with h1 | ⟨hmem, hlk, hfree, hsz⟩
  · exact absurd h1 (by simp)
  replace hlk : lookupBlock σ.blocks o = some b := hlk
  replace hfree : b.is_free = true := hfree
  replace hsz : s ≤ b.size := hsz
  obtain ⟨l1, l2, hbl, hfb, hpre⟩ := find?_decomp _ σ.blocks b hlk
  have ho : b.off = o := by simpa using hfb
  subst ho
  have hspos : 0 < s := Nat.pos_of_ne_zero hs0
  have hw' : walk 0 (l1 ++ b :: l2) = some PS := by rwa [hbl] at hw
  obtain ⟨h1, h2⟩ := walk_decomp l1 b l2 0 PS hw'
  have hfacts := walk_facts l1 b l2 hw'
  have hclean1 : ∀ c ∈ l1, c.off ≠ b.off := by
    intro c hc
    have := hfacts.1 c hc
    have := H_pos
    omega
  have hclean2 : ∀ c ∈ l2, c.off ≠ b.off := by
    intro c hc
    have h3 := (hfacts.2.1 c hc).1
    have := H_pos
    unfold endOf at h3
    omega
  have hps : ¬ PS ≤ b.off + H := by
    have h3 := hfacts.2.2
    unfold endOf at h3
    omega
  by_cases hcond : s + (H + 32) < b.size
  · -- split branch: the remainder is carved off and the free merges it back
    have hσ1blocks : (alloc_found σ b.off b s).blocks =
        l1 ++ { b with is_free := false, alignment := 0, padding := 0, size := s } ::
          (⟨b.off + H + s, true, b.size - s - H, σ.next_block_id, 0, 0⟩ : Blk) :: l2 := by
      rw [alloc_found_split σ b.off b s hcond]
      show splitIns σ.blocks b.off _ _ = _
      rw [hbl]
      exact splitIns_decomp l1 b l2 b.off _ _ hclean1 rfl hclean2
    have hwsplit : walk 0
        (l1 ++ { b with is_free := false, alignment := 0, padding := 0, size := s } ::
          (⟨b.off + H + s, true, b.size - s - H, σ.next_block_id, 0, 0⟩ : Blk) :: l2)
          = some PS := by
      refine walk_compose l1 _ _ 0 PS h1 ?_
      show walk (b.off + H + s)
        ((⟨b.off + H + s, true, b.size - s - H, σ.next_block_id, 0, 0⟩ : Blk) :: l2) = some PS
      simp only [walk, if_pos rfl]
      rw [show b.off + H + s + H + (b.size - s - H) = endOf b from by unfold endOf; omega]
      exact h2
    have hget1 : getBlockHeader (alloc_found σ b.off b s).blocks (b.off + H)
        = some { b with is_free := false, alignment := 0, padding := 0, size := s } := by
      rw [hσ1blocks]
      refine getBlockHeader_decomp l1 _ _ 0 PS (b.off + H) hwsplit le_rfl le_rfl ?_
      show b.off + H < b.off + H + s
      omega
    have hxf : xfree (alloc_found σ b.off b s) (some (b.off + H)) =
        (.ok, coalesce_with_previous (coalesce_with_next
          { alloc_found σ b.off b s with
            blocks := setFreeFlag (alloc_found σ b.off b s).blocks b.off true
            free_list := b.off :: (alloc_found σ b.off b s).free_list } b.off) b.off) := by
      rw [xfree_some, if_neg hps, hget1]
      rfl
    have hs1blocks : setFreeFlag (alloc_found σ b.off b s).blocks b.off true =
        l1 ++ (⟨b.off, true, s, b.block_id, 0, 0⟩ : Blk) ::
          (⟨b.off + H + s, true, b.size - s - H, σ.next_block_id, 0, 0⟩ : Blk) :: l2 := by
      rw [hσ1blocks]
      unfold setFreeFlag
      refine mapAt_decomp l1 _ _ b.off _ hclean1 rfl ?_
      intro c hc
      rcases List.mem_cons.mp hc with rfl | hc
      · show b.off + H + s ≠ b.off
        have := H_pos
        omega
      · exact hclean2 c hc
    have hws1 : walk 0
        (l1 ++ (⟨b.off, true, s, b.block_id, 0, 0⟩ : Blk) ::
          (⟨b.off + H + s, true, b.size - s - H, σ.next_block_id, 0, 0⟩ : Blk) :: l2)
          = some PS := by
      rw [walk_swap l1 (⟨b.off, true, s, b.block_id, 0, 0⟩ : Blk)
        { b with is_free := false, alignment := 0, padding := 0, size := s } _ 0 rfl rfl]
      exact hwsplit
    have hcn :
        coalesce_with_next
          { alloc_found σ b.off b s with
            blocks := setFreeFlag (alloc_found σ b.off b s).blocks b.off true
            free_list := b.off :: (alloc_found σ b.off b s).free_list } b.off =
        { alloc_found σ b.off b s with
          blocks := l1 ++ (⟨b.off, true, s + H + (b.size - s - H), b.block_id, 0, 0⟩ : Blk) :: l2
          free_list := (b.off :: (alloc_found σ b.off b s).free_list).erase (b.off + H + s) } :=
      coalesce_next_merge _ l1 (⟨b.off, true, s, b.block_id, 0, 0⟩ : Blk)
        (⟨b.off + H + s, true, b.size - s - H, σ.next_block_id, 0, 0⟩ : Blk) l2
        hs1blocks (by show walk 0 (setFreeFlag (alloc_found σ b.off b s).blocks b.off true) = some PS
                      rw [hs1blocks]; exact hws1) rfl
    have hws2 : walk 0
        (l1 ++ (⟨b.off, true, s + H + (b.size - s - H), b.block_id, 0, 0⟩ : Blk) :: l2)
          = some PS := by
      refine walk_compose l1 _ l2 0 PS h1 ?_
      show walk (b.off + H + (s + H + (b.size - s - H))) l2 = some PS
      rw [show b.off + H + (s + H + (b.size - s - H)) = endOf b from by unfold endOf; omega]
      exact h2
    have hcp : coalesce_with_previous
        { alloc_found σ b.off b s with
          blocks := l1 ++ (⟨b.off, true, s + H + (b.size - s - H), b.block_id, 0, 0⟩ : Blk) :: l2
          free_list := (b.off :: (alloc_found σ b.off b s).free_list).erase (b.off + H + s) } b.off =
        { alloc_found σ b.off b s with
          blocks := l1 ++ (⟨b.off, true, s + H + (b.size - s - H), b.block_id, 0, 0⟩ : Blk) :: l2
          free_list := (b.off :: (alloc_found σ b.off b s).free_list).erase (b.off + H + s) } := by
      rcases List.eq_nil_or_concat l1 with rfl | ⟨l1', hh, hl1⟩
      · exact coalesce_prev_no_prev _
          (⟨b.off, true, s + H + (b.size - s - H), b.block_id, 0, 0⟩ : Blk) l2 rfl hws2
      · rw [List.concat_eq_append] at hl1
        subst hl1
        have hna : noAdj (l1' ++ hh :: b :: l2) = true := by
          have hb2 : σ.blocks = l1' ++ hh :: b :: l2 := by rw [hbl]; simp
          rwa [hb2] at hadj
        have hhf : hh.is_free = false := by
          have h5 := noAdj_split l1' hh b l2 hna
          cases h6 : hh.is_free
          · rfl
          · rw [h6, hfree] at h5; exact absurd h5 (by simp)
        exact coalesce_prev_not_free _ l1' hh
          (⟨b.off, true, s + H + (b.size - s - H), b.block_id, 0, 0⟩ : Blk) l2 rfl hws2 hhf
    rw [hxf, hcn, hcp]
    refine ⟨rfl, ?_, ?_, ?_⟩
    · show (l1 ++ (⟨b.off, true, s + H + (b.size - s - H), b.block_id, 0, 0⟩ : Blk) :: l2).countP
            (fun c => c.is_free) = freeCount σ
      unfold freeCount
      rw [hbl]
      simp [List.countP_append, List.countP_cons, hfree]
    · show ((l1 ++ (⟨b.off, true, s + H + (b.size - s - H), b.block_id, 0, 0⟩ : Blk) :: l2).map
            (fun c => if c.is_free then c.size else 0)).sum = freeBytes σ
      unfold freeBytes
      rw [hbl]
      simp [List.map_append, List.sum_append, hfree]
      omega
    · exact hws2
  · -- no-split branch: the block is handed over whole and freed back
    have hσ1blocks : (alloc_found σ b.off b s).blocks =
        l1 ++ { b with is_free := false, alignment := 0, padding := 0 } :: l2 := by
      rw [alloc_found_whole σ b.off b s hcond]
      show updBlock σ.blocks b.off _ = _
      rw [hbl]
      unfold updBlock
      exact mapAt_decomp l1 b l2 b.off _ hclean1 rfl hclean2
    have hbpos : 0 < b.size := by omega
    have hw1 : walk 0 (l1 ++ { b with is_free := false, alignment := 0, padding := 0 } :: l2)
        = some PS := by
      rw [walk_swap l1 { b with is_free := false, alignment := 0, padding := 0 } b l2 0 rfl rfl]
      exact hw'
    have hget1 : getBlockHeader (alloc_found σ b.off b s).blocks (b.off + H)
        = some { b with is_free := false, alignment := 0, padding := 0 } := by
      rw [hσ1blocks]
      refine getBlockHeader_decomp l1 _ l2 0 PS (b.off + H) hw1 le_rfl le_rfl ?_
      show b.off + H < b.off + H + b.size
      omega
    have hxf : xfree (alloc_found σ b.off b s) (some (b.off + H)) =
        (.ok, coalesce_with_previous (coalesce_with_next
          { alloc_found σ b.off b s with
            blocks := setFreeFlag (alloc_found σ b.off b s).blocks b.off true
            free_list := b.off :: (alloc_found σ b.off b s).free_list } b.off) b.off) := by
      rw [xfree_some, if_neg hps, hget1]
      rfl
    have hs1blocks : setFreeFlag (alloc_found σ b.off b s).blocks b.off true =
        l1 ++ (⟨b.off, true, b.size, b.block_id, 0, 0⟩ : Blk) :: l2 := by
      rw [hσ1blocks]
      unfold setFreeFlag
      exact mapAt_decomp l1 _ l2 b.off _ hclean1 rfl hclean2
    have hws1 : walk 0 (l1 ++ (⟨b.off, true, b.size, b.block_id, 0, 0⟩ : Blk) :: l2)
        = some PS := by
      rw [walk_swap l1 (⟨b.off, true, b.size, b.block_id, 0, 0⟩ : Blk) b l2 0 rfl rfl]
      exact hw'
    have hcn :
        coalesce_with_next
          { alloc_found σ b.off b s with
            blocks := setFreeFlag (alloc_found σ b.off b s).blocks b.off true
            free_list := b.off :: (alloc_found σ b.off b s).free_list } b.off =
        { alloc_found σ b.off b s with
          blocks := setFreeFlag (alloc_found σ b.off b s).blocks b.off true
          free_list := b.off :: (alloc_found σ b.off b s).free_list } := by
      cases hl2 : l2 with
      | nil =>
        refine coalesce_next_nil _ l1 (⟨b.off, true, b.size, b.block_id, 0, 0⟩ : Blk) ?_ ?_
        · show setFreeFlag (alloc_found σ b.off b s).blocks b.off true = _
          rw [hs1blocks, hl2]
        · show walk 0 (setFreeFlag (alloc_found σ b.off b s).blocks b.off true) = some PS
          rw [hs1blocks]
          exact hws1
      | cons n l2' =>
        have hna : noAdj (l1 ++ b :: n :: l2') = true := by
          have hb2 : σ.blocks = l1 ++ b :: n :: l2' := by rw [hbl, hl2]
          rwa [hb2] at hadj
        have hnf : n.is_free = false := by
          have h5 := noAdj_split l1 b n l2' hna
          cases h6 : n.is_free
          · rfl
          · rw [h6, hfree] at h5; exact absurd h5 (by simp)
        refine coalesce_next_not_free _ l1 (⟨b.off, true, b.size, b.block_id, 0, 0⟩ : Blk)
          n l2' ?_ ?_ hnf
        · show setFreeFlag (alloc_found σ b.off b s).blocks b.off true = _
          rw [hs1blocks, hl2]
        · show walk 0 (setFreeFlag (alloc_found σ b.off b s).blocks b.off true) = some PS
          rw [hs1blocks]
          exact hws1
    have hcp : coalesce_with_previous
        { alloc_found σ b.off b s with
          blocks := setFreeFlag (alloc_found σ b.off b s).blocks b.off true
          free_list := b.off :: (alloc_found σ b.off b s).free_list } b.off =
        { alloc_found σ b.off b s with
          blocks := setFreeFlag (alloc_found σ b.off b s).blocks b.off true
          free_list := b.off :: (alloc_found σ b.off b s).free_list } := by
      rcases List.eq_nil_or_concat l1 with rfl | ⟨l1', hh, hl1⟩
      · refine coalesce_prev_no_prev _ (⟨b.off, true, b.size, b.block_id, 0, 0⟩ : Blk) l2 ?_ ?_
        · show setFreeFlag (alloc_found σ b.off b s).blocks b.off true = _
          rw [hs1blocks]
          rfl
        · show walk 0 (setFreeFlag (alloc_found σ b.off b s).blocks b.off true) = some PS
          rw [hs1blocks]
          exact hws1
      · rw [List.concat_eq_append] at hl1
        subst hl1
        have hna : noAdj (l1' ++ hh :: b :: l2) = true := by
          have hb2 : σ.blocks = l1' ++ hh :: b :: l2 := by rw [hbl]; simp
          rwa [hb2] at hadj
        have hhf : hh.is_free = false := by
          have h5 := noAdj_split l1' hh b l2 hna
          cases h6 : hh.is_free
          · rfl
          · rw [h6, hfree] at h5; exact absurd h5 (by simp)
        refine coalesce_prev_not_free _ l1' hh
          (⟨b.off, true, b.size, b.block_id, 0, 0⟩ : Blk) l2 ?_ ?_ hhf
        · show setFreeFlag (alloc_found σ b.off b s).blocks b.off true = _
          rw [hs1blocks]
        · show walk 0 (setFreeFlag (alloc_found σ b.off b s).blocks b.off true) = some PS
          rw [hs1blocks]
          exact hws1
    rw [hxf, hcn, hcp]
    refine ⟨rfl, ?_, ?_, ?_⟩
    · show (setFreeFlag (alloc_found σ b.off b s).blocks b.off true).countP
            (fun c => c.is_free) = freeCount σ
      unfold freeCount
      rw [hs1blocks, hbl]
      simp [List.countP_append, List.countP_cons, hfree]
    · show ((setFreeFlag (alloc_found σ b.off b s).blocks b.off true).map
            (fun c => if c.is_free then c.size else 0)).sum = freeBytes σ
      unfold freeBytes
      rw [hs1blocks, hbl]
      simp [List.map_append, List.sum_append, hfree]
    · show walk 0 (setFreeFlag (alloc_found σ b.off b s).blocks b.off true) = some PS
      rw [hs1blocks]
      exact hws1

/-- Witness for C5: allocate 100 bytes from the fresh pool and free the
returned pointer 48; the walk, the free-block count and the free byte
total are restored to the fresh pool's values. -/
theorem c5_round_trip_witness :
    (xfree (xmalloc initState 100).2 (some 48)).1 = .ok ∧
    freeCount (xfree (xmalloc initState 100).2 (some 48)).2 = freeCount initState ∧
    freeBytes (xfree (xmalloc initState 100).2 (some 48)).2 = freeBytes initState ∧
    walk 0 ((xfree (xmalloc initState 100).2 (some 48)).2).blocks = some PS :=
  c5_round_trip initState 100 48 (xmalloc initState 100).2 rfl rfl rfl

end SmartMalloc

namespace SmartMalloc

/-! ### Evolution of the id counter and of the creation trace -/

theorem id_evo_coalesce_next (σ : AState) (o : Nat) :
    (coalesce_with_next σ o).created = σ.created ∧
    (coalesce_with_next σ o).next_block_id = σ.next_block_id := by
  unfold coalesce_with_next
  split
  · exact ⟨rfl, rfl⟩
  · next cur heq =>
    by_cases h : o + H + cur.size < PS
    · rw [if_pos h]
      split
      · exact ⟨rfl, rfl⟩
      · next n heq2 =>
        by_cases hn : n.is_free = true
        · rw [if_pos hn]; exact ⟨rfl, rfl⟩
        · rw [if_neg hn]; exact ⟨rfl, rfl⟩
    · rw [if_neg h]; exact ⟨rfl, rfl⟩

theorem id_evo_coalesce_prev (σ : AState) (o : Nat) :
    (coalesce_with_previous σ o).created = σ.created ∧
    (coalesce_with_previous σ o).next_block_id = σ.next_block_id := by
  unfold coalesce_with_previous
  split
  · exact ⟨rfl, rfl⟩
  · next cur heq =>
    split
    · exact ⟨rfl, rfl⟩
    · next prev heq2 =>
      by_cases hp : prev.is_free = true
      · rw [if_pos hp]; exact ⟨rfl, rfl⟩
      · rw [if_neg hp]; exact ⟨rfl, rfl⟩

theorem id_evo_free_coalesce (σ0 : AState) (o : Nat) :
    (coalesce_with_previous (coalesce_with_next σ0 o) o).created = σ0.created ∧
    (coalesce_with_previous (coalesce_with_next σ0 o) o).next_block_id
      = σ0.next_block_id := by
  have h1 := id_evo_coalesce_next σ0 o
  have h2 := id_evo_coalesce_prev (coalesce_with_next σ0 o) o
  exact ⟨h2.1.trans h1.1, h2.2.trans h1.2⟩

theorem id_evo_alloc_found (σ : AState) (o : Nat) (b : Blk) (s : Nat) :
    ((alloc_found σ o b s).created = σ.created ∧
     (alloc_found σ o b s).next_block_id = σ.next_block_id) ∨
    ((alloc_found σ o b s).created = σ.created ++ [σ.next_block_id] ∧
     (alloc_found σ o b s).next_block_id = σ.next_block_id + 1) := by
  unfold alloc_found fresh_id
  dsimp only
  split
  · exact Or.inr ⟨rfl, rfl⟩
  · exact Or.inl ⟨rfl, rfl⟩

theorem id_evo_malloc_core (σ : AState) (s : Nat) :
    (((malloc_core σ s).2).created = σ.created ∧
     ((malloc_core σ s).2).next_block_id = σ.next_block_id) ∨
    (((malloc_core σ s).2).created = σ.created ++ [σ.next_block_id] ∧
     ((malloc_core σ s).2).next_block_id = σ.next_block_id + 1) := by
  unfold malloc_core
  split
  · exact Or.inl ⟨rfl, rfl⟩
  split
  · exact Or.inl ⟨rfl, rfl⟩
  split
  · exact Or.inl ⟨rfl, rfl⟩
  · next o b heq => exact id_evo_alloc_found σ o b s

theorem id_evo_xfree (σ : AState) (p : Option Nat) :
    ((xfree σ p).2).created = σ.created ∧
    ((xfree σ p).2).next_block_id = σ.next_block_id := by
  cases p with
  | none => exact ⟨rfl, rfl⟩
  | some q =>
    rw [xfree_some]
    by_cases hq : PS ≤ q
    · rw [if_pos hq]; exact ⟨rfl, rfl⟩
    · rw [if_neg hq]
      split
      · exact ⟨rfl, rfl⟩
      · next b heq =>
        by_cases hb : b.is_free = true
        · rw [if_pos hb]; exact ⟨rfl, rfl⟩
        · rw [if_neg hb]
          have hc := id_evo_free_coalesce
            { σ with blocks := setFreeFlag σ.blocks b.off true
                     free_list := b.off :: σ.free_list } b.off
          exact ⟨hc.1, hc.2⟩

theorem id_evo_xcalloc (σ : AState) (num sz : Nat) :
    (((xcalloc σ num sz).2).created = σ.created ∧
     ((xcalloc σ num sz).2).next_block_id = σ.next_block_id) ∨
    (((xcalloc σ num sz).2).created = σ.created ++ [σ.next_block_id] ∧
     ((xcalloc σ num sz).2).next_block_id = σ.next_block_id + 1) := by
  unfold xcalloc
  split
  · exact Or.inl ⟨rfl, rfl⟩
  · dsimp only
    split
    · exact Or.inl ⟨rfl, rfl⟩
    split
    · exact Or.inl ⟨rfl, rfl⟩
    split
    · exact Or.inl ⟨rfl, rfl⟩
    · next o b heq =>
      rcases id_evo_alloc_found σ o b (num * sz) with ⟨h1, h2⟩ | ⟨h1, h2⟩
      · exact Or.inl ⟨h1, h2⟩
      · exact Or.inr ⟨h1, h2⟩

theorem id_evo_xrealloc (σ : AState) (p : Option Nat) (n : Nat) :
    (((xrealloc σ p n).2).created = σ.created ∧
     ((xrealloc σ p n).2).next_block_id = σ.next_block_id) ∨
    (((xrealloc σ p n).2).created = σ.created ++ [σ.next_block_id] ∧
     ((xrealloc σ p n).2).next_block_id = σ.next_block_id + 1) := by
  cases p with
  | none => exact id_evo_malloc_core σ n
  | some q =>
    simp only [xrealloc]
    by_cases h0 : n = 0
    · rw [if_pos h0]
      by_cases hq : PS ≤ q
      · rw [if_pos hq]; exact Or.inl ⟨rfl, rfl⟩
      · rw [if_neg hq]
        split
        · exact Or.inl ⟨rfl, rfl⟩
        · next b heq =>
          by_cases hb : b.is_free = true
          · rw [if_pos hb]; exact Or.inl ⟨rfl, rfl⟩
          · rw [if_neg hb]
            have hc := id_evo_free_coalesce
              { σ with blocks := setFreeFlag σ.blocks b.off true
                       free_list := b.off :: σ.free_list } b.off
            exact Or.inl ⟨hc.1, hc.2⟩
    · rw [if_neg h0]
      by_cases hq : PS ≤ q
      · rw [if_pos hq]; exact Or.inl ⟨rfl, rfl⟩
      · rw [if_neg hq]
        split
        · exact Or.inl ⟨rfl, rfl⟩
        · next b heq =>
          by_cases hle : n ≤ b.size
          · rw [if_pos hle]; exact Or.inl ⟨rfl, rfl⟩
          · rw [if_neg hle]
            repeat' split
            all_goals try exact Or.inl ⟨rfl, rfl⟩
            all_goals try exact Or.inr ⟨rfl, rfl⟩
            all_goals
              rename_i o2 b2 heq2
              rcases id_evo_alloc_found σ o2 b2 n with ⟨h1, h2⟩ | ⟨h1, h2⟩
              · refine Or.inl ⟨?_, ?_⟩
                · rw [(id_evo_free_coalesce _ b.off).1]
                  exact h1
                · rw [(id_evo_free_coalesce _ b.off).2]
                  exact h2
              · refine Or.inr ⟨?_, ?_⟩
                · rw [(id_evo_free_coalesce _ b.off).1]
                  exact h1
                · rw [(id_evo_free_coalesce _ b.off).2]
                  exact h2

theorem id_evo_aligned (σ : AState) (s a base : Nat) :
    (((xmalloc_aligned σ s a base).2).created = σ.created ∧
     ((xmalloc_aligned σ s a base).2).next_block_id = σ.next_block_id) ∨
    (((xmalloc_aligned σ s a base).2).created = σ.created ++ [σ.next_block_id] ∧
     ((xmalloc_aligned σ s a base).2).next_block_id = σ.next_block_id + 1) := by
  unfold xmalloc_aligned
  split
  · exact Or.inl ⟨rfl, rfl⟩
  split
  · exact Or.inl ⟨rfl, rfl⟩
  · dsimp only
    split
    · exact Or.inl ⟨rfl, rfl⟩
    split
    · exact Or.inl ⟨rfl, rfl⟩
    · next o b heq =>
      split
      · split
        · exact Or.inr ⟨rfl, rfl⟩
        · exact Or.inl ⟨rfl, rfl⟩
      · split
        · exact Or.inr ⟨rfl, rfl⟩
        · exact Or.inl ⟨rfl, rfl⟩

theorem id_evo_defragment (σ : AState) :
    (defragment σ).created = σ.created ∧
    (defragment σ).next_block_id = σ.next_block_id := by
  unfold defragment
  exact ⟨rfl, rfl⟩

theorem inv_step (σ : AState) (op : Op) (hop : op ≠ Op.freeAll)
    (hinv : List.Pairwise (· < ·) σ.created ∧ ∀ x ∈ σ.created, x < σ.next_block_id) :
    List.Pairwise (· < ·) (step σ op).created ∧
      ∀ x ∈ (step σ op).created, x < (step σ op).next_block_id := by
  have hevo :
      ((step σ op).created = σ.created ∧
       (step σ op).next_block_id = σ.next_block_id) ∨
      ((step σ op).created = σ.created ++ [σ.next_block_id] ∧
       (step σ op).next_block_id = σ.next_block_id + 1) := by
    cases op with
    | malloc s => exact id_evo_malloc_core σ s
    | free p => exact Or.inl (id_evo_xfree σ p)
    | calloc num sz => exact id_evo_xcalloc σ num sz
    | realloc p nn => exact id_evo_xrealloc σ p nn
    | mallocAligned s a base => exact id_evo_aligned σ s a base
    | defrag => exact Or.inl (id_evo_defragment σ)
    | freeAll => exact absurd rfl hop
  rcases hevo with ⟨h1, h2⟩ | ⟨h1, h2⟩
  · rw [h1, h2]; exact hinv
  · rw [h1, h2]
    constructor
    · rw [List.pairwise_append]
      refine ⟨hinv.1, List.pairwise_singleton _ _, ?_⟩
      intro x hx y hy
      rcases List.mem_singleton.mp hy with rfl
      exact hinv.2 x hx
    · intro x hx
      rcases List.mem_append.mp hx with hx | hx
      · have := hinv.2 x hx; omega
      · rcases List.mem_singleton.mp hx with rfl; omega

theorem run_inv : ∀ (ops : List Op) (σ : AState),
    Op.freeAll ∉ ops →
    (List.Pairwise (· < ·) σ.created ∧ ∀ x ∈ σ.created, x < σ.next_block_id) →
    List.Pairwise (· < ·) (ops.foldl step σ).created ∧
      ∀ x ∈ (ops.foldl step σ).created, x < (ops.foldl step σ).next_block_id := by
  intro ops
  induction ops with
  | nil => intro σ _ h; exact h
  | cons op t ih =>
    intro σ hmem h
    have hop : op ≠ Op.freeAll := fun hc => hmem (by simp [hc])
    exact ih (step σ op) (fun hc => hmem (by simp [hc])) (inv_step σ op hop h)

/-- Claim C9 as amended: along any sequence of public operations that does
not contain `xfree_all`, the `block_id` values recorded at block creation
(pool initialization and splits) are strictly increasing — hence no two
created blocks share an id.  `xfree_all` breaks this by resetting the
counter to 1 and re-assigning id 0 to the reset block. -/
theorem c9_block_ids_increasing_without_free_all (ops : List Op)
    (h : Op.freeAll ∉ ops) : List.Pairwise (· < ·) (run ops).created :=
  (run_inv ops initState h ⟨by decide, by decide⟩).1

/-- Witness for the amended C9: the creation trace of `xmalloc(100)` from
the fresh pool is `[0, 1]`, strictly increasing. -/
theorem c9_block_ids_increasing_witness :
    List.Pairwise (· < ·) (run [Op.malloc 100]).created :=
  c9_block_ids_increasing_without_free_all [Op.malloc 100] (by decide)

end SmartMalloc
